import Mathlib

/-!
Verification development for the inspection-report PDF generator
(`src/app.py`).  Text is modelled as `List Char` (Python `str`),
image bytes by whether they decode and to which pixel dimensions,
physical/pixel geometry by exact rationals, and the reportlab story
by an inductive `Flow` type.  Python helpers are translated
function-by-function; each definition's doc comment names its source.
-/

namespace Inspector

/-- Python whitespace characters relevant to `str.strip` / `str.rstrip`
(ASCII subset; the inputs handled by the app are produced by the
helpers below, which only ever introduce space and newline). -/
def isPyWs (c : Char) : Bool :=
  c = ' ' || c = '\t' || c = '\n' || c = '\r' || c = '\x0b' || c = '\x0c'

/-- `text.replace("\r\n", "\n").replace("\r", "\n")` from
`normalize_spaces` (src/app.py lines 205): every CRLF pair and every
remaining CR becomes LF. -/
def crlfToLf : List Char → List Char
  | [] => []
  | [c] => if c = '\r' then ['\n'] else [c]
  | c :: d :: cs =>
    if c = '\r' then
      if d = '\n' then '\n' :: crlfToLf cs
      else '\n' :: crlfToLf (d :: cs)
    else c :: crlfToLf (d :: cs)

/-- State machine for `re.sub(r"[ \t]+", " ", text)` (src/app.py line 206):
each maximal run of spaces/tabs becomes a single space.  `prevSp` records
whether we are inside such a run. -/
def collapseSpAux : Bool → List Char → List Char
  | _, [] => []
  | prevSp, c :: cs =>
    if c = ' ' || c = '\t' then
      if prevSp then collapseSpAux true cs else ' ' :: collapseSpAux true cs
    else c :: collapseSpAux false cs

def collapseSp (t : List Char) : List Char := collapseSpAux false t

/-- State machine for `re.sub(r"\n{3,}", "\n\n", text)` (src/app.py
line 207): a run of three or more newlines is shortened to two.
`run` counts the newlines just emitted. -/
def collapseNlAux : Nat → List Char → List Char
  | _, [] => []
  | run, c :: cs =>
    if c = '\n' then
      if 2 ≤ run then collapseNlAux (run + 1) cs
      else '\n' :: collapseNlAux (run + 1) cs
    else c :: collapseNlAux 0 cs

def collapseNl (t : List Char) : List Char := collapseNlAux 0 t

/-- Python `str.strip()`: drop leading and trailing whitespace. -/
def pyStrip (t : List Char) : List Char :=
  (t.dropWhile isPyWs).rdropWhile isPyWs

/-- `normalize_spaces` (src/app.py lines 203-208). -/
def normalize_spaces (t : List Char) : List Char :=
  pyStrip (collapseNl (collapseSp (crlfToLf t)))

/-- `trim_for_pdf` (src/app.py lines 216-221): normalize, and when the
result exceeds `maxChars`, cut to `maxChars - 3` characters, right-strip,
append an ellipsis and strip. -/
def trim_for_pdf (text : List Char) (maxChars : Nat) : List Char :=
  let t := normalize_spaces text
  if t.length ≤ maxChars then t
  else pyStrip ((t.take (maxChars - 3)).rdropWhile isPyWs ++ ("...".data))

/-- `xml.sax.saxutils.escape`, per character: `&` then `<` then `>` are
replaced by their entities.  The three sequential `str.replace` calls
are equivalent to this single character map because the replacement
entities contain none of the characters replaced later. -/
def escChar (c : Char) : List Char :=
  if c = '&' then ("&amp;".data)
  else if c = '<' then ("&lt;".data)
  else if c = '>' then ("&gt;".data)
  else [c]

def escapeXml (t : List Char) : List Char := (t.map escChar).flatten

/-- `t.replace("\n", "<br/>")` from `text_to_paragraph_html`. -/
def brChar (c : Char) : List Char :=
  if c = '\n' then ("<br/>".data) else [c]

def brReplace (t : List Char) : List Char := (t.map brChar).flatten

/-- `text_to_paragraph_html` (src/app.py lines 211-213). -/
def text_to_paragraph_html (text : List Char) : List Char :=
  let t := escapeXml (crlfToLf text)
  if (pyStrip t).isEmpty then ("—".data)
  else pyStrip (brReplace t)

/-- Scanner for the safety property of C7: accepts exactly the strings in
which every `&` begins one of the entities `&amp;` `&lt;` `&gt;`, every
`<` begins the inserted `<br/>` tag and no bare `>` occurs. -/
def wellEscaped : List Char → Bool
  | [] => true
  | '&' :: 'a' :: 'm' :: 'p' :: ';' :: r => wellEscaped r
  | '&' :: 'l' :: 't' :: ';' :: r => wellEscaped r
  | '&' :: 'g' :: 't' :: ';' :: r => wellEscaped r
  | '<' :: 'b' :: 'r' :: '/' :: '>' :: r => wellEscaped r
  | '&' :: _ => false
  | '<' :: _ => false
  | '>' :: _ => false
  | _ :: cs => wellEscaped cs

/-- `generate_conclusion_short` (src/app.py lines 259-265). -/
def generate_conclusion_short (disciplina nivel_riesgo : List Char)
    (hallazgos : List (List Char)) : List Char :=
  let riesgo := ("Riesgo ".data) ++ nivel_riesgo.map Char.toLower
  let prioridad :=
    if nivel_riesgo = ("Alto".data) then ("inmediata".data)
    else if nivel_riesgo = ("Medio".data) then ("programada".data)
    else ("rutinaria".data)
  match hallazgos with
  | [] =>
    disciplina ++ (": ".data) ++ riesgo ++ (". Prioridad ".data) ++ prioridad ++
      (". Acción: mantener condición segura y registrar verificación.".data)
  | _ :: _ =>
    let hall := List.intercalate (", ".data) (hallazgos.take 5)
    disciplina ++ (": ".data) ++ riesgo ++ (". Prioridad ".data) ++ prioridad ++
      (". Hallazgos: ".data) ++ hall ++
      (". Acción: corregir desviación y registrar OT.".data)

/-!  Image geometry.  Pixel arithmetic from `_img_to_jpeg_cover`,
`_trim_signature` and `_img_to_jpeg_signature_big` is modelled over `ℚ`
(`int(x)` on the nonnegative quantities involved is `⌊x⌋`, Python `//`
is `Int.fdiv`). -/

/-- `box_px_h = max(1, int(box_px_w * (box_h_mm / box_w_mm)))` with
`box_px_w = 1800` (src/app.py lines 298-299 and 344-345). -/
def boxPxH (boxW boxH : ℚ) : Nat :=
  max 1 (Int.toNat ⌊(1800 : ℚ) * (boxH / boxW)⌋)

/-- The resize-and-crop geometry computed by `_img_to_jpeg_cover`
(src/app.py lines 294-313): `newW × newH` are the dimensions after
aspect-preserving scaling by `scale = max(box_px_w/img.width,
box_px_h/img.height)`, and `(left, top, right, bottom)` is the centre
crop box. -/
structure CoverGeom where
  newW : Nat
  newH : Nat
  left : Int
  top : Int
  right : Int
  bottom : Int
  deriving DecidableEq, Repr

def coverGeom (imgW imgH : Nat) (boxW boxH : ℚ) : CoverGeom :=
  let W : Nat := 1800
  let H : Nat := boxPxH boxW boxH
  let scale : ℚ := max ((W : ℚ) / (imgW : ℚ)) ((H : ℚ) / (imgH : ℚ))
  let newW : Nat := Int.toNat ⌊(imgW : ℚ) * scale⌋
  let newH : Nat := Int.toNat ⌊(imgH : ℚ) * scale⌋
  let left : Int := Int.fdiv ((newW : Int) - (W : Int)) 2
  let top : Int := Int.fdiv ((newH : Int) - (H : Int)) 2
  ⟨newW, newH, left, top, left + (W : Int), top + (H : Int)⟩

/-- A decoded signature image for `_trim_signature`: pixel dimensions plus
the coordinates of the pixels that differ from the uniform white /
transparent background (the pixels `ImageChops.difference` reports,
i.e. the signature strokes). -/
structure SigImg where
  w : Nat
  h : Nat
  strokes : List (Nat × Nat)
  deriving DecidableEq, Repr

/-- `diff.getbbox()`: the smallest `(left, upper, right, lower)` box
containing all non-background pixels, `none` when there are none. -/
def sigBBox (img : SigImg) : Option (Nat × Nat × Nat × Nat) :=
  match img.strokes with
  | [] => none
  | p :: ps =>
    let l := ps.foldl (fun m q => min m q.1) p.1
    let u := ps.foldl (fun m q => min m q.2) p.2
    let r := ps.foldl (fun m q => max m q.1) p.1
    let b := ps.foldl (fun m q => max m q.2) p.2
    some (l, u, r + 1, b + 1)

/-- `_trim_signature` (src/app.py lines 316-332): crop to the bounding
box of the non-background pixels; return the image unchanged when the
difference is empty. -/
def trimSignature (img : SigImg) : SigImg :=
  match sigBBox img with
  | none => img
  | some (l, u, r, b) =>
    ⟨r - l, b - u, img.strokes.map (fun p => (p.1 - l, p.2 - u))⟩

/-- `img.thumbnail((box_px_w, box_px_h))` dimensions (idealised over ℚ:
PIL's integer rounding of the aspect-preserving size is kept exact).
`thumbnail` never enlarges: when the image already fits the box it is
left alone, otherwise it is scaled by `min(W/w, H/h)`. -/
def thumbnailDims (w h W H : Nat) : ℚ × ℚ :=
  if w ≤ W ∧ h ≤ H then ((w : ℚ), (h : ℚ))
  else
    let s : ℚ := min ((W : ℚ) / (w : ℚ)) ((H : ℚ) / (h : ℚ))
    ((w : ℚ) * s, (h : ℚ) * s)

/-- The placement computed by `_img_to_jpeg_signature_big`
(src/app.py lines 335-354): trim, fit into the `1800 × boxPxH` white
canvas without enlarging, paste centred. -/
structure SigLayout where
  canvasW : Nat
  canvasH : Nat
  trimmed : SigImg
  fitW : ℚ
  fitH : ℚ
  offX : ℚ
  offY : ℚ

def signatureLayout (img : SigImg) (boxW boxH : ℚ) : SigLayout :=
  let W : Nat := 1800
  let H : Nat := boxPxH boxW boxH
  let trimmed := trimSignature img
  let d := thumbnailDims trimmed.w trimmed.h W H
  { canvasW := W, canvasH := H, trimmed := trimmed,
    fitW := d.1, fitH := d.2,
    offX := ((W : ℚ) - d.1) / 2, offY := ((H : ℚ) - d.2) / 2 }

/-!  The PDF story.  `build_pdf` (src/app.py lines 360-544) assembles a
reportlab "story"; we model the story as a list of flowables and keep
the geometry of every placed image.  Serialisation to bytes
(`doc.build`) is outside the program's own logic.  Uploaded bytes are
modelled by whether `PIL.Image.open` decodes them, and to which pixel
dimensions; `none` models bytes whose decoding raises. -/

structure ImgBytes where
  decoded : Option (Nat × Nat)
  deriving DecidableEq, Repr

/-- A JPEG produced by one of the two image helpers (pixel dimensions). -/
structure JpegImg where
  w : Nat
  h : Nat
  deriving DecidableEq, Repr

inductive BuildErr where
  /-- `PIL.Image.open` raised on undecodable bytes. -/
  | decodeError : BuildErr
  /-- a list index was out of range (Python `IndexError`). -/
  | indexError : BuildErr
  deriving DecidableEq, Repr

/-- `_img_to_jpeg_cover` through the model: decode, then the cover
geometry; the crop always returns the requested `1800 × boxPxH` box.
Decode failure propagates as an exception — there is no handler in
`build_pdf`. -/
def imgToJpegCover (b : ImgBytes) (boxW boxH : ℚ) :
    Except BuildErr JpegImg :=
  match b.decoded with
  | none => .error .decodeError
  | some (w0, h0) =>
    let g := coverGeom w0 h0 boxW boxH
    .ok ⟨(g.right - g.left).toNat, (g.bottom - g.top).toNat⟩

/-- `_img_to_jpeg_signature_big` through the model: decode, trim, paste
onto the fixed `1800 × boxPxH` white canvas; the output always has the
canvas dimensions. -/
def imgToJpegSignatureBig (b : ImgBytes) (boxW boxH : ℚ) :
    Except BuildErr JpegImg :=
  match b.decoded with
  | none => .error .decodeError
  | some _ => .ok ⟨1800, boxPxH boxW boxH⟩

/-- Sizes from src/app.py lines 37-41. -/
def PHOTO_W_2COL_MM : ℚ := 86
def PHOTO_H_2COL_MM : ℚ := 72
def PHOTO_W_FULL_MM : ℚ := 172
def PHOTO_H_FULL_MM : ℚ := 95
def SIGN_W_MM : ℚ := 90
def SIGN_H_MM : ℚ := 60

inductive PStyle where
  | h1 | h2 | body
  deriving DecidableEq, Repr

/-- A cell of one of the photo/signature grids: a placed image
(with display size in mm) or the `""` filler. -/
inductive Cell where
  | image (j : JpegImg) (wMM hMM : ℚ)
  | blank
  deriving DecidableEq, Repr

/-- A flowable of the story (styling/padding data that does not affect
which content is emitted is omitted). -/
inductive Flow where
  | para (style : PStyle) (html : List Char)
  | kvTable (rows : List (List Char × List Char))
  | image (j : JpegImg) (wMM hMM : ℚ)
  | grid (rows : List (List Cell))
  deriving DecidableEq, Repr

/-- `fotos_use[i]` (Python raises `IndexError` past the end). -/
def pyIndex {α : Type} (l : List α) (i : Nat) : Except BuildErr α :=
  match l.get? i with
  | some x => .ok x
  | none => .error .indexError

/-- `photo_obj` (src/app.py lines 437-438). -/
def photoObj (b : ImgBytes) (w h : ℚ) : Except BuildErr Cell := do
  let j ← imgToJpegCover b w h
  pure (Cell.image j w h)

/-- `sign_obj` (src/app.py lines 440-442). -/
def signObj (b : ImgBytes) : Except BuildErr Cell := do
  let j ← imgToJpegSignatureBig b SIGN_W_MM SIGN_H_MM
  pure (Cell.image j SIGN_W_MM SIGN_H_MM)

/-- The `data` rows of the key/value header table
(src/app.py lines 389-400). -/
def headerRows (titulo fecha equipo ubicacion inspector cargo registro_ot
    disciplina nivel_riesgo : List Char) (hallazgos : List (List Char)) :
    List (List Char × List Char) :=
  [(("Fecha".data), fecha), (("Título".data), titulo),
   (("Disciplina".data), disciplina), (("Riesgo".data), nivel_riesgo),
   (("Equipo / Área".data), equipo), (("Ubicación".data), ubicacion),
   (("Inspector".data), inspector), (("Cargo".data), cargo),
   (("OT / Registro".data), registro_ot),
   (("Hallazgos".data),
     match hallazgos with
     | [] => ("—".data)
     | _ :: _ => List.intercalate (", ".data) hallazgos)]

/-- The fixed prefix of the story: heading, header table, the
observations and conclusion sections (src/app.py lines 386-425).
`obs_pdf`/`con_pdf` are the already-trimmed texts. -/
def storyHead (rows : List (List Char × List Char))
    (obs_pdf con_pdf : List Char) : List Flow :=
  [Flow.para .h1 (("INFORME TÉCNICO DE INSPECCIÓN".data)),
   Flow.kvTable rows,
   Flow.para .h2 (("Observaciones".data)),
   Flow.para .body (text_to_paragraph_html obs_pdf),
   Flow.para .h2 (("Conclusión".data)),
   Flow.para .body (text_to_paragraph_html con_pdf)]

/-- `build_pdf` (src/app.py lines 360-544), returning the story it
serialises.  Exceptions escaping the call (decode failures,
`IndexError`) are the `.error` results. -/
def build_pdf (titulo fecha equipo ubicacion inspector cargo registro_ot
    disciplina nivel_riesgo : List Char) (hallazgos : List (List Char))
    (observaciones conclusion : List Char)
    (fotos : List (List Char × ImgBytes))
    (firma_img : Option (List Char × ImgBytes))
    (include_firma include_fotos : Bool) :
    Except BuildErr (List Flow) := do
  let data := headerRows titulo fecha equipo ubicacion inspector cargo
    registro_ot disciplina nivel_riesgo hallazgos
  let has_media : Bool :=
    (include_fotos && !fotos.isEmpty) || (include_firma && firma_img.isSome)
  let obs_pdf := trim_for_pdf observaciones (if has_media then 520 else 2000)
  let con_pdf := trim_for_pdf conclusion (if has_media then 320 else 2000)
  let story : List Flow := storyHead data obs_pdf con_pdf
  let fotos_use := if include_fotos && !fotos.isEmpty then fotos.take 3 else []
  let sig_use := if include_firma then firma_img else none
  if fotos_use.isEmpty && sig_use.isNone then
    pure story
  else do
    let story := story ++ [Flow.para .h2 (("Imágenes".data))]
    let n := fotos_use.length
    if n = 1 && sig_use.isNone then do
      let f0 ← pyIndex fotos_use 0
      let p1 ← imgToJpegCover f0.2 PHOTO_W_FULL_MM PHOTO_H_FULL_MM
      pure (story ++ [Flow.image p1 PHOTO_W_FULL_MM PHOTO_H_FULL_MM])
    else if n = 1 && sig_use.isSome then do
      let f0 ← pyIndex fotos_use 0
      let p1 ← photoObj f0.2 PHOTO_W_FULL_MM PHOTO_H_FULL_MM
      let s ← pyIndex sig_use.toList 0
      let s1 ← signObj s.2
      pure (story ++ [Flow.grid [[p1], [s1]]])
    else if n = 2 && sig_use.isNone then do
      let f0 ← pyIndex fotos_use 0
      let p1 ← photoObj f0.2 PHOTO_W_2COL_MM PHOTO_H_2COL_MM
      let f1 ← pyIndex fotos_use 1
      let p2 ← photoObj f1.2 PHOTO_W_2COL_MM PHOTO_H_2COL_MM
      pure (story ++ [Flow.grid [[p1, p2]]])
    else if n = 2 && sig_use.isSome then do
      let f0 ← pyIndex fotos_use 0
      let p1 ← photoObj f0.2 PHOTO_W_2COL_MM PHOTO_H_2COL_MM
      let f1 ← pyIndex fotos_use 1
      let p2 ← photoObj f1.2 PHOTO_W_2COL_MM PHOTO_H_2COL_MM
      let s ← pyIndex sig_use.toList 0
      let s1 ← signObj s.2
      pure (story ++ [Flow.grid [[p1, p2], [s1, Cell.blank]]])
    else if n = 3 && sig_use.isNone then do
      let f0 ← pyIndex fotos_use 0
      let p1 ← photoObj f0.2 PHOTO_W_2COL_MM PHOTO_H_2COL_MM
      let f1 ← pyIndex fotos_use 1
      let p2 ← photoObj f1.2 PHOTO_W_2COL_MM PHOTO_H_2COL_MM
      let f2 ← pyIndex fotos_use 2
      let p3 ← photoObj f2.2 PHOTO_W_2COL_MM PHOTO_H_2COL_MM
      pure (story ++ [Flow.grid [[p1, p2], [p3, Cell.blank]]])
    else do
      -- Python comment claims `n == 3 and sig_use`, but this branch is
      -- also reached with n = 0 and a signature, where `fotos_use[0]`
      -- raises IndexError.
      let f0 ← pyIndex fotos_use 0
      let p1 ← photoObj f0.2 PHOTO_W_2COL_MM PHOTO_H_2COL_MM
      let f1 ← pyIndex fotos_use 1
      let p2 ← photoObj f1.2 PHOTO_W_2COL_MM PHOTO_H_2COL_MM
      let f2 ← pyIndex fotos_use 2
      let p3 ← photoObj f2.2 PHOTO_W_2COL_MM PHOTO_H_2COL_MM
      let s ← pyIndex sig_use.toList 0
      let s1 ← signObj s.2
      pure (story ++ [Flow.grid [[p1, p2], [p3, s1]]])

/-- Result of the "Generar PDF Profesional" click handler
(src/app.py lines 636-665). -/
structure GenResult where
  fotosUsed : List (List Char × ImgBytes)
  pdf : Except BuildErr (List Flow)
  warnings : List (List Char)
  deriving Repr

/-- The click handler: read at most the first three uploaded photos
(`(fotos_files or [])[:3]`, line 637), call `build_pdf`, offer the
download.  The handler calls no `st.warning`/`st.info` on this path,
so the list of warnings it surfaces is empty. -/
def generateClick (files : List (List Char × ImgBytes))
    (firma : Option (List Char × ImgBytes))
    (titulo fecha equipo ubicacion inspector cargo registro_ot
      disciplina nivel_riesgo : List Char) (hallazgos : List (List Char))
    (observaciones conclusion : List Char)
    (include_firma include_fotos : Bool) : GenResult :=
  let fotos := files.take 3
  { fotosUsed := fotos,
    pdf := build_pdf titulo fecha equipo ubicacion inspector cargo
      registro_ot disciplina nivel_riesgo hallazgos observaciones
      conclusion fotos firma include_firma include_fotos,
    warnings := [] }

/-!  `basic_spanish_fixes` (src/app.py lines 224-246).  Each replacement
is `re.compile(rf"\b{re.escape(wrong)}\b", re.IGNORECASE).sub(right, t)`
where every `wrong` consists solely of word characters.  For such a
pattern a match is exactly a maximal run of word characters that equals
`wrong` up to ASCII case, so the substitution is: split the text into
maximal word runs and non-word characters, and replace every run whose
lowercasing is `wrong` by `right`.  Case handling is modelled at ASCII
level, plus the accented Spanish letters as word characters. -/

/-- Regex word characters appearing in this app's texts (ASCII
alphanumerics, underscore, accented Spanish letters). -/
def isWordChar (c : Char) : Bool :=
  c.isAlphanum || c = '_' ||
    ("áéíóúñüÁÉÍÓÚÑÜ".data).contains c

/-- A token: a (maximal) run of word characters, or one other character. -/
inductive Tok where
  | word (cs : List Char)
  | other (c : Char)
  deriving DecidableEq, Repr

/-- Tokenizer; `acc` holds the current word run, reversed. -/
def tokAux : List Char → List Char → List Tok
  | acc, [] => if acc.isEmpty then [] else [Tok.word acc.reverse]
  | acc, c :: cs =>
    if isWordChar c then tokAux (c :: acc) cs
    else if acc.isEmpty then Tok.other c :: tokAux [] cs
    else Tok.word acc.reverse :: Tok.other c :: tokAux [] cs

def tokenize (t : List Char) : List Tok := tokAux [] t

def detok : List Tok → List Char
  | [] => []
  | .word X :: rest => X ++ detok rest
  | .other c :: rest => c :: detok rest

/-- Lowercase a word for the `re.IGNORECASE` comparison (patterns are
ASCII lowercase). -/
def lowWord (cs : List Char) : List Char := cs.map Char.toLower

/-- One substitution applied to one token. -/
def subTok (w r : List Char) : Tok → Tok
  | .word X => if lowWord X = w then .word r else .word X
  | .other c => .other c

/-- `pattern.sub(right, t)` for the word-pattern `rf"\b{wrong}\b"`. -/
def wordSub (w r t : List Char) : List Char :=
  detok ((tokenize t).map (subTok w r))

/-- `pattern.search(t)` for the same pattern. -/
def hasWordMatch (w t : List Char) : Bool :=
  (tokenize t).any (fun tk =>
    match tk with | .word X => lowWord X = w | .other _ => false)

/-- The `replacements` dict, in iteration order (src/app.py 227-237). -/
def rules : List (List Char × List Char) :=
  [(("demasciado".data), ("demasiado".data)),
   (("ubucacion".data), ("ubicación".data)),
   (("ubicacion".data), ("ubicación".data)),
   (("observacion".data), ("observación".data)),
   (("conclucion".data), ("conclusión".data)),
   (("electrico".data), ("eléctrico".data)),
   (("mecanico".data), ("mecánico".data)),
   (("inspeccion".data), ("inspección".data)),
   (("epp".data), ("EPP".data))]

/-- An entry of the returned `changes` list (the formatted message
`"'wrong' → 'right'"` or `"Capitalización inicial"`, kept as data). -/
inductive FixMsg where
  | repl (wrong right : List Char)
  | capitalized
  deriving DecidableEq, Repr

/-- `str.islower` / `str.upper` for the single character
`t[0]`, at ASCII level. -/
def lowerAscii : List Char := ("abcdefghijklmnopqrstuvwxyz".data)

def pyIsLower (c : Char) : Bool := lowerAscii.contains c

def pyToUpper (c : Char) : Char := if pyIsLower c then c.toUpper else c

/-- `t[0].upper() + t[1:]` applied when `t and t[0].islower()`
(src/app.py lines 243-245), on the text alone. -/
def capFirst : List Char → List Char
  | [] => []
  | c :: cs => if pyIsLower c then pyToUpper c :: cs else c :: cs

/-- `basic_spanish_fixes` (src/app.py lines 224-246): normalize, apply
each matching replacement in dict order recording a change message,
then capitalise a lowercase first character. -/
def basic_spanish_fixes (text : List Char) : List Char × List FixMsg :=
  let t0 := normalize_spaces text
  let step := rules.foldl
    (fun (p : List Char × List FixMsg) rule =>
      if hasWordMatch rule.1 p.1 then
        (wordSub rule.1 rule.2 p.1, p.2 ++ [FixMsg.repl rule.1 rule.2])
      else p)
    (t0, [])
  match step.1 with
  | [] => step
  | c :: cs =>
    if pyIsLower c then (capFirst (c :: cs), step.2 ++ [FixMsg.capitalized])
    else step


/-! ### General helper lemmas -/

theorem dropWhile_eq_self_of {p : Char → Bool} {l : List Char}
    (h : ∀ c ∈ l, p c = false) : l.dropWhile p = l := by
  cases l with
  | nil => rfl
  | cons c cs => rw [List.dropWhile_cons, h c (by simp)]; simp

theorem rdropWhile_eq_self_of {p : Char → Bool} {l : List Char}
    (h : ∀ c ∈ l, p c = false) : l.rdropWhile p = l :=
  List.rdropWhile_eq_self_iff.2 (fun hl => by simp [h _ (List.getLast_mem hl)])

theorem pyStrip_eq_self_of {l : List Char}
    (h : ∀ c ∈ l, isPyWs c = false) : pyStrip l = l := by
  rw [pyStrip, dropWhile_eq_self_of h, rdropWhile_eq_self_of h]

theorem crlfToLf_eq_self {t : List Char} (h : ∀ c ∈ t, c ≠ '\r') :
    crlfToLf t = t := by
  induction t with
  | nil => rfl
  | cons c cs ih =>
    cases cs with
    | nil => simp [crlfToLf, h c (by simp)]
    | cons d ds =>
      rw [crlfToLf, if_neg (by simpa using h c (by simp))]
      exact congrArg _ (ih (fun x hx => h x (by simp [hx])))

theorem collapseSpAux_eq_self {t : List Char}
    (h : ∀ c ∈ t, (c = ' ' || c = '\t') = false) (b : Bool) :
    collapseSpAux b t = t := by
  induction t generalizing b with
  | nil => rfl
  | cons c cs ih =>
    rw [collapseSpAux, if_neg (by simp [h c (by simp)])]
    exact congrArg _ (ih (fun x hx => h x (by simp [hx])) false)

theorem collapseNlAux_eq_self {t : List Char}
    (h : ∀ c ∈ t, (c = '\n') = false) (r : Nat) :
    collapseNlAux r t = t := by
  induction t generalizing r with
  | nil => rfl
  | cons c cs ih =>
    rw [collapseNlAux, if_neg (by simp [h c (by simp)])]
    exact congrArg _ (ih (fun x hx => h x (by simp [hx])) 0)

theorem isPyWs_false_parts {c : Char} (h : isPyWs c = false) :
    c ≠ ' ' ∧ c ≠ '\t' ∧ c ≠ '\n' ∧ c ≠ '\r' ∧ c ≠ '\x0b' ∧ c ≠ '\x0c' := by
  simp only [isPyWs, Bool.or_eq_false_iff, decide_eq_false_iff_not] at h
  exact ⟨h.1.1.1.1.1, h.1.1.1.1.2, h.1.1.1.2, h.1.1.2, h.1.2, h.2⟩

theorem normalize_spaces_eq_self {t : List Char}
    (h : ∀ c ∈ t, isPyWs c = false) : normalize_spaces t = t := by
  have hr : ∀ c ∈ t, c ≠ '\r' := fun c hc => (isPyWs_false_parts (h c hc)).2.2.2.1
  have hst : ∀ c ∈ t, (c = ' ' || c = '\t') = false := by
    intro c hc
    have hp := isPyWs_false_parts (h c hc)
    simp [hp.1, hp.2.1]
  have hn : ∀ c ∈ t, (c = '\n') = false := by
    intro c hc
    have hp := isPyWs_false_parts (h c hc)
    simp [hp.2.2.1]
  rw [normalize_spaces, crlfToLf_eq_self hr, collapseSp,
    collapseSpAux_eq_self hst, collapseNl, collapseNlAux_eq_self hn,
    pyStrip_eq_self_of]
  intro c hc
  exact h c hc

theorem trim_for_pdf_of_le {t : List Char} {m : Nat}
    (h : (normalize_spaces t).length ≤ m) :
    trim_for_pdf t m = normalize_spaces t := by
  rw [trim_for_pdf, if_pos h]



/-! ### C1 -/

/-- With no photo list and no signature, `build_pdf` emits exactly the
six text flows; both texts are trimmed with the no-media budget 2000. -/
theorem build_pdf_no_media (titulo fecha equipo ubicacion inspector cargo
    registro_ot disciplina nivel_riesgo : List Char)
    (hallazgos : List (List Char)) (observaciones conclusion : List Char)
    (bS bF : Bool) :
    build_pdf titulo fecha equipo ubicacion inspector cargo registro_ot
      disciplina nivel_riesgo hallazgos observaciones conclusion [] none bS bF
    = Except.ok (storyHead
        (headerRows titulo fecha equipo ubicacion inspector cargo registro_ot
          disciplina nivel_riesgo hallazgos)
        (trim_for_pdf observaciones 2000) (trim_for_pdf conclusion 2000)) := by
  simp [build_pdf]
  rfl

/-- A character that none of the text pipeline stages rewrite. -/
def plainChar (c : Char) : Bool :=
  !isPyWs c && !(c = '&') && !(c = '<') && !(c = '>') && !(c = '\n') && !(c = '\r')

theorem escapeXml_eq_self {t : List Char}
    (h : ∀ c ∈ t, plainChar c = true) : escapeXml t = t := by
  induction t with
  | nil => rfl
  | cons c cs ih =>
    have hp := h c (by simp)
    simp only [plainChar, Bool.and_eq_true, Bool.not_eq_true',
      decide_eq_false_iff_not] at hp
    simp only [escapeXml, List.map_cons, List.flatten_cons]
    rw [escChar, if_neg hp.1.1.1.1.2, if_neg hp.1.1.1.2, if_neg hp.1.1.2]
    simpa using ih (fun x hx => h x (by simp [hx]))

theorem brReplace_eq_self {t : List Char}
    (h : ∀ c ∈ t, plainChar c = true) : brReplace t = t := by
  induction t with
  | nil => rfl
  | cons c cs ih =>
    have hp := h c (by simp)
    simp only [plainChar, Bool.and_eq_true, Bool.not_eq_true',
      decide_eq_false_iff_not] at hp
    simp only [brReplace, List.map_cons, List.flatten_cons]
    rw [brChar, if_neg hp.1.2]
    simpa using ih (fun x hx => h x (by simp [hx]))

theorem plainChar_ws_false {c : Char} (h : plainChar c = true) :
    isPyWs c = false := by
  simp only [plainChar, Bool.and_eq_true, Bool.not_eq_true'] at h
  exact h.1.1.1.1.1

/-- `text_to_paragraph_html` is the identity on nonempty text made of
characters it does not rewrite. -/
theorem text_to_paragraph_html_plain {t : List Char} (hne : t ≠ [])
    (h : ∀ c ∈ t, plainChar c = true) : text_to_paragraph_html t = t := by
  have hws : ∀ c ∈ t, isPyWs c = false := fun c hc => plainChar_ws_false (h c hc)
  have hcr : ∀ c ∈ t, c ≠ '\r' := by
    intro c hc he
    have := hws c hc
    rw [he] at this
    simp [isPyWs] at this
  rw [text_to_paragraph_html]
  simp only [crlfToLf_eq_self hcr, escapeXml_eq_self h, pyStrip_eq_self_of hws,
    brReplace_eq_self h]
  rw [if_neg (by simp [List.isEmpty_iff, hne])]

theorem replicate_a_plain (n : Nat) :
    ∀ c ∈ List.replicate n 'a', plainChar c = true := by
  intro c hc
  rw [List.eq_of_mem_replicate hc]
  decide

theorem ns_replicate_a (n : Nat) :
    normalize_spaces (List.replicate n 'a') = List.replicate n 'a' :=
  normalize_spaces_eq_self
    (fun c hc => plainChar_ws_false (replicate_a_plain n c hc))

/-- A 2001-character observation is cut to 1997 characters plus the
ellipsis even with the no-media budget. -/
theorem trim_replicate_2001 :
    trim_for_pdf (List.replicate 2001 'a') 2000
      = List.replicate 1997 'a' ++ ("...".data) := by
  have hplain : ∀ c ∈ List.replicate 1997 'a' ++ ("...".data), plainChar c = true := by
    intro c hc
    rcases List.mem_append.1 hc with hl | hr
    · exact replicate_a_plain 1997 c hl
    · fin_cases hr <;> decide
  rw [trim_for_pdf, ns_replicate_a]
  rw [if_neg (by rw [List.length_replicate]; omega)]
  have h1997 : (List.replicate 2001 'a').take (2000 - 3) = List.replicate 1997 'a' := by
    rw [List.take_replicate]; norm_num
  rw [h1997,
    rdropWhile_eq_self_of (fun c hc => plainChar_ws_false (replicate_a_plain 1997 c hc)),
    pyStrip_eq_self_of (fun c hc => plainChar_ws_false (hplain c hc))]

/-- C1, counterexample: with zero photos and zero signature and a
2001-character observation text, the document does *not* hold the
whitespace-normalized input — `build_pdf` still truncates at the
2000-character no-media budget, so "no truncation regardless of length"
fails. -/
theorem C1_counterexample :
    build_pdf (("Informe".data)) (("01-01-2025".data)) (("Eq".data))
      (("Ub".data)) (("Insp".data)) (("Cargo".data)) (("OT".data))
      (("Eléctrica".data)) (("Medio".data)) [] (List.replicate 2001 'a')
      (("ok".data)) [] none true true
    ≠ Except.ok (storyHead
        (headerRows (("Informe".data)) (("01-01-2025".data)) (("Eq".data))
          (("Ub".data)) (("Insp".data)) (("Cargo".data)) (("OT".data))
          (("Eléctrica".data)) (("Medio".data)) [])
        (normalize_spaces (List.replicate 2001 'a'))
        (normalize_spaces (("ok".data)))) := by
  rw [build_pdf_no_media]
  intro h
  have hstory := Except.ok.inj h
  have h3 := congrArg (fun l => l[3]?) hstory
  simp only [storyHead, List.getElem?_cons_succ, List.getElem?_cons_zero] at h3
  have hobs : text_to_paragraph_html (trim_for_pdf (List.replicate 2001 'a') 2000)
      = text_to_paragraph_html (normalize_spaces (List.replicate 2001 'a')) :=
    (Flow.para.inj (Option.some.inj h3)).2
  rw [trim_replicate_2001, ns_replicate_a] at hobs
  have hne1 : List.replicate 1997 'a' ++ ("...".data) ≠ [] := by
    intro he
    have hl := congrArg List.length he
    rw [List.length_append, List.length_replicate, List.length_nil] at hl
    omega
  have hne2 : List.replicate 2001 'a' ≠ [] := by
    intro he
    have hl := congrArg List.length he
    rw [List.length_replicate, List.length_nil] at hl
    omega
  rw [text_to_paragraph_html_plain hne1 (by
        intro c hc
        rcases List.mem_append.1 hc with hl | hr
        · exact replicate_a_plain 1997 c hl
        · fin_cases hr <;> decide),
    text_to_paragraph_html_plain hne2 (replicate_a_plain 2001)] at hobs
  have hlen := congrArg List.length hobs
  rw [List.length_append, List.length_replicate, List.length_replicate,
    show (("...".data)).length = 3 from rfl] at hlen
  omega

/-- C1, amended: with zero photos and zero signature (`has_media`
false) the emitted observations/conclusion paragraphs hold the
whitespace-normalized input untruncated *provided* the normalized text
is at most 2000 characters; longer text is still truncated to the
2000-character budget with an ellipsis. -/
theorem C1_amended (titulo fecha equipo ubicacion inspector cargo
    registro_ot disciplina nivel_riesgo : List Char)
    (hallazgos : List (List Char)) (observaciones conclusion : List Char)
    (bS bF : Bool)
    (hobs : (normalize_spaces observaciones).length ≤ 2000)
    (hcon : (normalize_spaces conclusion).length ≤ 2000) :
    build_pdf titulo fecha equipo ubicacion inspector cargo registro_ot
      disciplina nivel_riesgo hallazgos observaciones conclusion [] none bS bF
    = Except.ok (storyHead
        (headerRows titulo fecha equipo ubicacion inspector cargo registro_ot
          disciplina nivel_riesgo hallazgos)
        (normalize_spaces observaciones) (normalize_spaces conclusion)) := by
  rw [build_pdf_no_media, trim_for_pdf_of_le hobs, trim_for_pdf_of_le hcon]

/-- Witness for `C1_amended` at a concrete record. -/
theorem C1_amended_witness :
    (normalize_spaces (("hola mundo".data))).length ≤ 2000 ∧
    (normalize_spaces (("todo correcto".data))).length ≤ 2000 ∧
    build_pdf (("Informe".data)) (("01-01-2025".data)) (("Eq".data))
      (("Ub".data)) (("Insp".data)) (("Cargo".data)) (("OT".data))
      (("Eléctrica".data)) (("Medio".data)) [] (("hola mundo".data))
      (("todo correcto".data)) [] none true true
    = Except.ok (storyHead
        (headerRows (("Informe".data)) (("01-01-2025".data)) (("Eq".data))
          (("Ub".data)) (("Insp".data)) (("Cargo".data)) (("OT".data))
          (("Eléctrica".data)) (("Medio".data)) [])
        (normalize_spaces (("hola mundo".data)))
        (normalize_spaces (("todo correcto".data)))) :=
  ⟨by decide, by decide,
    C1_amended (("Informe".data)) (("01-01-2025".data)) (("Eq".data))
      (("Ub".data)) (("Insp".data)) (("Cargo".data)) (("OT".data))
      (("Eléctrica".data)) (("Medio".data)) [] (("hola mundo".data))
      (("todo correcto".data)) true true (by decide) (by decide)⟩

/-! ### C2 -/

/-- C2: evaluating `build_pdf` at the failing input — zero photos but a
signature present (both include-flags on).  The `else` branch of the
layout chain (commented `n == 3 and sig_use` in the source) is reached
with `n = 0` and evaluates `fotos_use[0]`, so the call raises
`IndexError` instead of rendering a document with `min(0,3) = 0` photo
blocks. -/
theorem C2_failing_input_eval :
    build_pdf (("Informe".data)) (("07-10-2025".data)) (("Equipo".data))
      (("Planta".data)) (("JORGE".data)) (("Esp".data)) (("OT-1".data))
      (("Eléctrica".data)) (("Medio".data)) [] (("obs".data)) (("con".data))
      [] (some ((("firma.png".data)), ⟨some (600, 400)⟩)) true true
    = Except.error BuildErr.indexError := by
  rfl

/-! ### C3 -/

/-- C3, counterexample: a record whose single photo fails to decode
makes `build_pdf` abort with the decode exception — it does not
complete, no placeholder note is inserted. -/
theorem C3_counterexample :
    build_pdf (("Informe".data)) (("07-10-2025".data)) (("Equipo".data))
      (("Planta".data)) (("JORGE".data)) (("Esp".data)) (("OT-1".data))
      (("Eléctrica".data)) (("Medio".data)) [] (("obs".data)) (("con".data))
      [((("foto1.jpg".data)), ⟨none⟩)] none true true
    = Except.error BuildErr.decodeError := by
  rfl

/-- C3, amended: for *every* record whose single photo fails to decode,
`build_pdf` propagates the decode exception (there is no handler around
`_img_to_jpeg_cover`), so generation aborts rather than skipping the
image and inserting a placeholder. -/
theorem C3_amended (titulo fecha equipo ubicacion inspector cargo
    registro_ot disciplina nivel_riesgo : List Char)
    (hallazgos : List (List Char)) (observaciones conclusion : List Char)
    (name : List Char) (bS : Bool) :
    build_pdf titulo fecha equipo ubicacion inspector cargo registro_ot
      disciplina nivel_riesgo hallazgos observaciones conclusion
      [(name, ⟨none⟩)] none bS true
    = Except.error BuildErr.decodeError := by
  simp [build_pdf, pyIndex, imgToJpegCover, Bind.bind, Except.bind]

/-! ### C4 -/

/-- C4, counterexample: with five supplied photos the generation click
handler uses exactly the first three, but surfaces *no* warning — the
warning list of the generation path is empty, refuting "a
human-readable warning is surfaced to the caller". -/
theorem C4_counterexample :
    (generateClick
      [((("f1.jpg".data)), ⟨some (100, 100)⟩), ((("f2.jpg".data)), ⟨some (200, 100)⟩),
       ((("f3.jpg".data)), ⟨some (300, 100)⟩), ((("f4.jpg".data)), ⟨some (400, 100)⟩),
       ((("f5.jpg".data)), ⟨some (500, 100)⟩)]
      none (("Informe".data)) (("07-10-2025".data)) (("Equipo".data))
      (("Planta".data)) (("JORGE".data)) (("Esp".data)) (("OT-1".data))
      (("Eléctrica".data)) (("Medio".data)) [] (("obs".data)) (("con".data))
      true true).warnings = [] ∧
    (generateClick
      [((("f1.jpg".data)), ⟨some (100, 100)⟩), ((("f2.jpg".data)), ⟨some (200, 100)⟩),
       ((("f3.jpg".data)), ⟨some (300, 100)⟩), ((("f4.jpg".data)), ⟨some (400, 100)⟩),
       ((("f5.jpg".data)), ⟨some (500, 100)⟩)]
      none (("Informe".data)) (("07-10-2025".data)) (("Equipo".data))
      (("Planta".data)) (("JORGE".data)) (("Esp".data)) (("OT-1".data))
      (("Eléctrica".data)) (("Medio".data)) [] (("obs".data)) (("con".data))
      true true).fotosUsed
      = [((("f1.jpg".data)), ⟨some (100, 100)⟩), ((("f2.jpg".data)), ⟨some (200, 100)⟩),
         ((("f3.jpg".data)), ⟨some (300, 100)⟩)] :=
  ⟨rfl, rfl⟩

/-- C4, amended: for every uploaded photo list the generation handler
uses exactly the first three (excess inputs are truncated, not
rejected — the whole result only depends on the first three files),
but no warning is surfaced to the caller. -/
theorem C4_amended (files : List (List Char × ImgBytes))
    (firma : Option (List Char × ImgBytes))
    (titulo fecha equipo ubicacion inspector cargo registro_ot
      disciplina nivel_riesgo : List Char) (hallazgos : List (List Char))
    (observaciones conclusion : List Char) (bS bF : Bool) :
    (generateClick files firma titulo fecha equipo ubicacion inspector cargo
        registro_ot disciplina nivel_riesgo hallazgos observaciones conclusion
        bS bF).fotosUsed = files.take 3 ∧
    (generateClick files firma titulo fecha equipo ubicacion inspector cargo
        registro_ot disciplina nivel_riesgo hallazgos observaciones conclusion
        bS bF).warnings = [] ∧
    generateClick files firma titulo fecha equipo ubicacion inspector cargo
        registro_ot disciplina nivel_riesgo hallazgos observaciones conclusion
        bS bF
      = generateClick (files.take 3) firma titulo fecha equipo ubicacion
          inspector cargo registro_ot disciplina nivel_riesgo hallazgos
          observaciones conclusion bS bF := by
  refine ⟨rfl, rfl, ?_⟩
  simp [generateClick, List.take_take]



/-! ### C5 -/

theorem toNat_floor_ge (n : Nat) (q s : ℚ) (h : (n : ℚ) ≤ q * s) :
    n ≤ Int.toNat ⌊q * s⌋ := by
  have h1 : (n : Int) ≤ ⌊q * s⌋ := Int.le_floor.2 (by exact_mod_cast h)
  omega

theorem fdiv_two_bounds (a : Int) (h : 0 ≤ a) :
    0 ≤ a.fdiv 2 ∧ a.fdiv 2 ≤ a := by
  rw [Int.fdiv_eq_ediv _ (by norm_num)]
  exact ⟨Int.ediv_nonneg h (by norm_num), Int.ediv_le_self 2 h⟩

/-- C5: for every source image (width, height ≥ 1 px) and every target
box, `_img_to_jpeg_cover` crops the aspect-preserving rescale to a box of
exactly `1800 × boxPxH` pixels — the output dimensions depend only on the
box, never on the source aspect ratio — and the centre-crop rectangle
lies inside the resized image (no letterbox padding is ever needed). -/
theorem C5_cover_fixed_box (imgW imgH : Nat) (boxW boxH : ℚ)
    (hw : 1 ≤ imgW) (hh : 1 ≤ imgH) :
    ((coverGeom imgW imgH boxW boxH).right - (coverGeom imgW imgH boxW boxH).left
        = 1800 ∧
      (coverGeom imgW imgH boxW boxH).bottom - (coverGeom imgW imgH boxW boxH).top
        = (boxPxH boxW boxH : Int)) ∧
    0 ≤ (coverGeom imgW imgH boxW boxH).left ∧
    (coverGeom imgW imgH boxW boxH).right ≤ ((coverGeom imgW imgH boxW boxH).newW : Int) ∧
    0 ≤ (coverGeom imgW imgH boxW boxH).top ∧
    (coverGeom imgW imgH boxW boxH).bottom ≤ ((coverGeom imgW imgH boxW boxH).newH : Int) := by
  have hw0 : (0 : ℚ) < (imgW : ℚ) := by exact_mod_cast hw
  have hh0 : (0 : ℚ) < (imgH : ℚ) := by exact_mod_cast hh
  rcases hG : coverGeom imgW imgH boxW boxH with ⟨nW, nH, l, tp, r, bt⟩
  simp only [coverGeom, CoverGeom.mk.injEq] at hG
  obtain ⟨hnW, hnH, hl, htp, hr, hbt⟩ := hG
  have hWle : 1800 ≤ nW := by
    rw [← hnW]
    apply toNat_floor_ge
    refine le_trans ?_ (mul_le_mul_of_nonneg_left (le_max_left _ _) (le_of_lt hw0))
    rw [mul_comm, div_mul_cancel₀ _ (ne_of_gt hw0)]
  have hHle : boxPxH boxW boxH ≤ nH := by
    rw [← hnH]
    apply toNat_floor_ge
    refine le_trans ?_ (mul_le_mul_of_nonneg_left (le_max_right _ _) (le_of_lt hh0))
    rw [mul_comm, div_mul_cancel₀ _ (ne_of_gt hh0)]
  rw [hnW] at hl hr
  rw [hnH] at htp hbt
  have hbl := fdiv_two_bounds ((nW : Int) - (1800 : Nat)) (by omega)
  have hbt2 := fdiv_two_bounds ((nH : Int) - ((boxPxH boxW boxH : Nat) : Int))
    (by omega)
  subst hl htp hr hbt
  simp only []
  refine ⟨⟨by omega, by omega⟩, ?_, ?_, ?_, ?_⟩
  · exact hbl.1
  · have := hbl.2
    omega
  · exact hbt2.1
  · have := hbt2.2
    omega

/-- Witness for `C5_cover_fixed_box` at a concrete 4000x3000 photo and
the 86x72 photo box. -/
theorem C5_cover_fixed_box_witness :
    1 ≤ 4000 ∧ 1 ≤ 3000 ∧
    (((coverGeom 4000 3000 86 72).right - (coverGeom 4000 3000 86 72).left
        = 1800 ∧
      (coverGeom 4000 3000 86 72).bottom - (coverGeom 4000 3000 86 72).top
        = (boxPxH 86 72 : Int)) ∧
    0 ≤ (coverGeom 4000 3000 86 72).left ∧
    (coverGeom 4000 3000 86 72).right ≤ ((coverGeom 4000 3000 86 72).newW : Int) ∧
    0 ≤ (coverGeom 4000 3000 86 72).top ∧
    (coverGeom 4000 3000 86 72).bottom ≤ ((coverGeom 4000 3000 86 72).newH : Int)) :=
  ⟨by decide, by decide, C5_cover_fixed_box 4000 3000 86 72 (by decide) (by decide)⟩

/-! ### C6 -/

theorem foldl_min_le_init {α : Type} (g : α → Nat) (ps : List α) (a : Nat) :
    ps.foldl (fun m q => min m (g q)) a ≤ a := by
  induction ps generalizing a with
  | nil => exact le_refl a
  | cons q qs ih =>
    exact le_trans (ih (min a (g q))) (min_le_left _ _)

theorem foldl_min_le_mem {α : Type} (g : α → Nat) (ps : List α) (a : Nat)
    (q : α) (hq : q ∈ ps) :
    ps.foldl (fun m x => min m (g x)) a ≤ g q := by
  induction ps generalizing a with
  | nil => cases hq
  | cons x xs ih =>
    rcases List.mem_cons.1 hq with he | hm
    · subst he
      exact le_trans (foldl_min_le_init g xs (min a (g q))) (min_le_right _ _)
    · exact ih _ hm

theorem foldl_max_ge_init {α : Type} (g : α → Nat) (ps : List α) (a : Nat) :
    a ≤ ps.foldl (fun m q => max m (g q)) a := by
  induction ps generalizing a with
  | nil => exact le_refl a
  | cons q qs ih =>
    exact le_trans (le_max_left _ _) (ih (max a (g q)))

theorem foldl_max_ge_mem {α : Type} (g : α → Nat) (ps : List α) (a : Nat)
    (q : α) (hq : q ∈ ps) :
    g q ≤ ps.foldl (fun m x => max m (g x)) a := by
  induction ps generalizing a with
  | nil => cases hq
  | cons x xs ih =>
    rcases List.mem_cons.1 hq with he | hm
    · subst he
      exact le_trans (le_max_right _ _) (foldl_max_ge_init g xs (max a (g q)))
    · exact ih _ hm

/-- Every stroke pixel lies inside the bounding box `getbbox` returns. -/
theorem sigBBox_bounds {img : SigImg} {l u r b : Nat}
    (hbb : sigBBox img = some (l, u, r, b)) :
    ∀ p ∈ img.strokes, l ≤ p.1 ∧ u ≤ p.2 ∧ p.1 < r ∧ p.2 < b := by
  intro p hp
  unfold sigBBox at hbb
  rcases hstr : img.strokes with _ | ⟨q, qs⟩
  · rw [hstr] at hbb; cases hbb
  · rw [hstr] at hbb
    simp only [Option.some.injEq, Prod.mk.injEq] at hbb
    obtain ⟨hL, hU, hR, hB⟩ := hbb
    rw [hstr] at hp
    rcases List.mem_cons.1 hp with he | hm
    · subst he
      refine ⟨?_, ?_, ?_, ?_⟩
      · rw [← hL]; exact foldl_min_le_init _ qs _
      · rw [← hU]; exact foldl_min_le_init _ qs _
      · have h1 : p.1 ≤ qs.foldl (fun m x => max m x.1) p.1 :=
          foldl_max_ge_init (fun x => x.1) qs p.1
        omega
      · have h1 : p.2 ≤ qs.foldl (fun m x => max m x.2) p.2 :=
          foldl_max_ge_init (fun x => x.2) qs p.2
        omega
    · refine ⟨?_, ?_, ?_, ?_⟩
      · rw [← hL]; exact foldl_min_le_mem _ qs _ p hm
      · rw [← hU]; exact foldl_min_le_mem _ qs _ p hm
      · have h1 : p.1 ≤ qs.foldl (fun m x => max m x.1) q.1 :=
          foldl_max_ge_mem (fun x => x.1) qs q.1 p hm
        omega
      · have h1 : p.2 ≤ qs.foldl (fun m x => max m x.2) q.2 :=
          foldl_max_ge_mem (fun x => x.2) qs q.2 p hm
        omega

/-- The trimmed signature keeps positive dimensions. -/
theorem trimSignature_pos {img : SigImg} (hw : 1 ≤ img.w) (hh : 1 ≤ img.h) :
    1 ≤ (trimSignature img).w ∧ 1 ≤ (trimSignature img).h := by
  unfold trimSignature
  rcases hbb : sigBBox img with _ | ⟨⟨l, u, r, b⟩⟩
  · exact ⟨hw, hh⟩
  · rcases hstr : img.strokes with _ | ⟨q, qs⟩
    · unfold sigBBox at hbb; rw [hstr] at hbb; cases hbb
    · have := sigBBox_bounds hbb q (by rw [hstr]; simp)
      simp only []
      omega

/-- `thumbnail` keeps the image inside the box, preserves the aspect
ratio exactly (ideal-rational model) and returns nonnegative sizes. -/
theorem thumbnailDims_spec (w h W H : Nat) (hw : 1 ≤ w) (hh : 1 ≤ h) :
    (thumbnailDims w h W H).1 ≤ (W : ℚ) ∧ (thumbnailDims w h W H).2 ≤ (H : ℚ) ∧
    (thumbnailDims w h W H).1 * (h : ℚ) = (thumbnailDims w h W H).2 * (w : ℚ) ∧
    0 ≤ (thumbnailDims w h W H).1 ∧ 0 ≤ (thumbnailDims w h W H).2 := by
  have hw0 : (0 : ℚ) < (w : ℚ) := by exact_mod_cast hw
  have hh0 : (0 : ℚ) < (h : ℚ) := by exact_mod_cast hh
  unfold thumbnailDims
  split
  · rename_i hfit
    dsimp only
    refine ⟨by exact_mod_cast hfit.1, by exact_mod_cast hfit.2, by ring, ?_, ?_⟩
    · positivity
    · positivity
  · rename_i hnofit
    dsimp only
    have hs0 : 0 ≤ min ((W : ℚ) / (w : ℚ)) ((H : ℚ) / (h : ℚ)) := by
      apply le_min <;> positivity
    refine ⟨?_, ?_, by ring, by positivity, by positivity⟩
    · calc (w : ℚ) * min ((W : ℚ) / (w : ℚ)) ((H : ℚ) / (h : ℚ))
          ≤ (w : ℚ) * ((W : ℚ) / (w : ℚ)) :=
            mul_le_mul_of_nonneg_left (min_le_left _ _) (le_of_lt hw0)
        _ = (W : ℚ) := by rw [mul_comm, div_mul_cancel₀ _ (ne_of_gt hw0)]
    · calc (h : ℚ) * min ((W : ℚ) / (w : ℚ)) ((H : ℚ) / (h : ℚ))
          ≤ (h : ℚ) * ((H : ℚ) / (h : ℚ)) :=
            mul_le_mul_of_nonneg_left (min_le_right _ _) (le_of_lt hh0)
        _ = (H : ℚ) := by rw [mul_comm, div_mul_cancel₀ _ (ne_of_gt hh0)]


theorem center_off (W fit : ℚ) (hfit : fit ≤ W) :
    0 ≤ (W - fit) / 2 ∧ (W - fit) / 2 + fit ≤ W ∧ (W - fit) / 2 * 2 = W - fit := by
  refine ⟨by linarith, by linarith, by ring⟩

/-- C6: `_img_to_jpeg_signature_big` places the signature with contain
fit: the canvas is the fixed `1800 × boxPxH` box; the trim pass keeps
every stroke pixel (shifted into the trimmed image, inside its bounds);
the thumbnail step fits the trimmed image entirely inside the box with
the aspect ratio preserved exactly; and the centred paste keeps the
whole image inside the canvas — no stroke pixel is cropped and the
image is not distorted, whatever the source aspect ratio. -/
theorem C6_signature_contain (img : SigImg) (boxW boxH : ℚ)
    (hw : 1 ≤ img.w) (hh : 1 ≤ img.h) :
    ((signatureLayout img boxW boxH).canvasW = 1800 ∧
      (signatureLayout img boxW boxH).canvasH = boxPxH boxW boxH) ∧
    (∀ p ∈ img.strokes, ∀ l u r b, sigBBox img = some (l, u, r, b) →
      l ≤ p.1 ∧ u ≤ p.2 ∧
      (p.1 - l, p.2 - u) ∈ (signatureLayout img boxW boxH).trimmed.strokes ∧
      p.1 - l < (signatureLayout img boxW boxH).trimmed.w ∧
      p.2 - u < (signatureLayout img boxW boxH).trimmed.h) ∧
    ((signatureLayout img boxW boxH).fitW ≤ ((1800 : Nat) : ℚ) ∧
     (signatureLayout img boxW boxH).fitH ≤ ((boxPxH boxW boxH : Nat) : ℚ)) ∧
    (signatureLayout img boxW boxH).fitW * ((signatureLayout img boxW boxH).trimmed.h : ℚ)
      = (signatureLayout img boxW boxH).fitH * ((signatureLayout img boxW boxH).trimmed.w : ℚ) ∧
    (0 ≤ (signatureLayout img boxW boxH).offX ∧
     0 ≤ (signatureLayout img boxW boxH).offY ∧
     (signatureLayout img boxW boxH).offX + (signatureLayout img boxW boxH).fitW
        ≤ (((signatureLayout img boxW boxH).canvasW : Nat) : ℚ) ∧
     (signatureLayout img boxW boxH).offY + (signatureLayout img boxW boxH).fitH
        ≤ (((signatureLayout img boxW boxH).canvasH : Nat) : ℚ)) ∧
    ((signatureLayout img boxW boxH).offX * 2
        = (((signatureLayout img boxW boxH).canvasW : Nat) : ℚ)
            - (signatureLayout img boxW boxH).fitW ∧
     (signatureLayout img boxW boxH).offY * 2
        = (((signatureLayout img boxW boxH).canvasH : Nat) : ℚ)
            - (signatureLayout img boxW boxH).fitH) := by
  obtain ⟨htw, hth⟩ := trimSignature_pos hw hh
  obtain ⟨hW, hH, hAspect, hWnn, hHnn⟩ :=
    thumbnailDims_spec (trimSignature img).w (trimSignature img).h
      1800 (boxPxH boxW boxH) htw hth
  simp only [signatureLayout]
  refine ⟨⟨by trivial, by trivial⟩, ?_, ⟨?_, ?_⟩, ?_, ⟨?_, ?_, ?_, ?_⟩, ?_, ?_⟩
  · intro p hp l u r b hbb
    have hbd := sigBBox_bounds hbb p hp
    unfold trimSignature
    rw [hbb]
    refine ⟨hbd.1, hbd.2.1, ?_, ?_, ?_⟩
    · simp only []
      exact List.mem_map.2 ⟨p, hp, rfl⟩
    · simp only []
      omega
    · simp only []
      omega
  · exact_mod_cast hW
  · exact hH
  · exact hAspect
  · exact (center_off _ _ (by exact_mod_cast hW)).1
  · exact (center_off _ _ hH).1
  · exact (center_off _ _ (by exact_mod_cast hW)).2.1
  · exact (center_off _ _ hH).2.1
  · exact (center_off _ _ (by exact_mod_cast hW)).2.2
  · exact (center_off _ _ hH).2.2

/-- Witness for `C6_signature_contain` at a concrete signature scan. -/
theorem C6_signature_contain_witness :
    1 ≤ (⟨10, 8, [(2, 3), (5, 1)]⟩ : SigImg).w ∧
    1 ≤ (⟨10, 8, [(2, 3), (5, 1)]⟩ : SigImg).h ∧
    (((signatureLayout (⟨10, 8, [(2, 3), (5, 1)]⟩ : SigImg) (90 : ℚ) (60 : ℚ)).canvasW = 1800 ∧
      (signatureLayout (⟨10, 8, [(2, 3), (5, 1)]⟩ : SigImg) (90 : ℚ) (60 : ℚ)).canvasH = boxPxH (90 : ℚ) (60 : ℚ)) ∧
    (∀ p ∈ (⟨10, 8, [(2, 3), (5, 1)]⟩ : SigImg).strokes, ∀ l u r b, sigBBox (⟨10, 8, [(2, 3), (5, 1)]⟩ : SigImg) = some (l, u, r, b) →
      l ≤ p.1 ∧ u ≤ p.2 ∧
      (p.1 - l, p.2 - u) ∈ (signatureLayout (⟨10, 8, [(2, 3), (5, 1)]⟩ : SigImg) (90 : ℚ) (60 : ℚ)).trimmed.strokes ∧
      p.1 - l < (signatureLayout (⟨10, 8, [(2, 3), (5, 1)]⟩ : SigImg) (90 : ℚ) (60 : ℚ)).trimmed.w ∧
      p.2 - u < (signatureLayout (⟨10, 8, [(2, 3), (5, 1)]⟩ : SigImg) (90 : ℚ) (60 : ℚ)).trimmed.h) ∧
    ((signatureLayout (⟨10, 8, [(2, 3), (5, 1)]⟩ : SigImg) (90 : ℚ) (60 : ℚ)).fitW ≤ ((1800 : Nat) : ℚ) ∧
     (signatureLayout (⟨10, 8, [(2, 3), (5, 1)]⟩ : SigImg) (90 : ℚ) (60 : ℚ)).fitH ≤ ((boxPxH (90 : ℚ) (60 : ℚ) : Nat) : ℚ)) ∧
    (signatureLayout (⟨10, 8, [(2, 3), (5, 1)]⟩ : SigImg) (90 : ℚ) (60 : ℚ)).fitW * ((signatureLayout (⟨10, 8, [(2, 3), (5, 1)]⟩ : SigImg) (90 : ℚ) (60 : ℚ)).trimmed.h : ℚ)
      = (signatureLayout (⟨10, 8, [(2, 3), (5, 1)]⟩ : SigImg) (90 : ℚ) (60 : ℚ)).fitH * ((signatureLayout (⟨10, 8, [(2, 3), (5, 1)]⟩ : SigImg) (90 : ℚ) (60 : ℚ)).trimmed.w : ℚ) ∧
    (0 ≤ (signatureLayout (⟨10, 8, [(2, 3), (5, 1)]⟩ : SigImg) (90 : ℚ) (60 : ℚ)).offX ∧
     0 ≤ (signatureLayout (⟨10, 8, [(2, 3), (5, 1)]⟩ : SigImg) (90 : ℚ) (60 : ℚ)).offY ∧
     (signatureLayout (⟨10, 8, [(2, 3), (5, 1)]⟩ : SigImg) (90 : ℚ) (60 : ℚ)).offX + (signatureLayout (⟨10, 8, [(2, 3), (5, 1)]⟩ : SigImg) (90 : ℚ) (60 : ℚ)).fitW
        ≤ (((signatureLayout (⟨10, 8, [(2, 3), (5, 1)]⟩ : SigImg) (90 : ℚ) (60 : ℚ)).canvasW : Nat) : ℚ) ∧
     (signatureLayout (⟨10, 8, [(2, 3), (5, 1)]⟩ : SigImg) (90 : ℚ) (60 : ℚ)).offY + (signatureLayout (⟨10, 8, [(2, 3), (5, 1)]⟩ : SigImg) (90 : ℚ) (60 : ℚ)).fitH
        ≤ (((signatureLayout (⟨10, 8, [(2, 3), (5, 1)]⟩ : SigImg) (90 : ℚ) (60 : ℚ)).canvasH : Nat) : ℚ)) ∧
    ((signatureLayout (⟨10, 8, [(2, 3), (5, 1)]⟩ : SigImg) (90 : ℚ) (60 : ℚ)).offX * 2
        = (((signatureLayout (⟨10, 8, [(2, 3), (5, 1)]⟩ : SigImg) (90 : ℚ) (60 : ℚ)).canvasW : Nat) : ℚ)
            - (signatureLayout (⟨10, 8, [(2, 3), (5, 1)]⟩ : SigImg) (90 : ℚ) (60 : ℚ)).fitW ∧
     (signatureLayout (⟨10, 8, [(2, 3), (5, 1)]⟩ : SigImg) (90 : ℚ) (60 : ℚ)).offY * 2
        = (((signatureLayout (⟨10, 8, [(2, 3), (5, 1)]⟩ : SigImg) (90 : ℚ) (60 : ℚ)).canvasH : Nat) : ℚ)
            - (signatureLayout (⟨10, 8, [(2, 3), (5, 1)]⟩ : SigImg) (90 : ℚ) (60 : ℚ)).fitH)) :=
  ⟨by decide, by decide,
    C6_signature_contain (⟨10, 8, [(2, 3), (5, 1)]⟩ : SigImg) (90 : ℚ) (60 : ℚ) (by decide) (by decide)⟩



/-! ### C7 and C9 -/

theorem rdropWhile_append (p : Char → Bool) (xs ys : List Char) :
    (xs ++ ys).rdropWhile p =
      if ys.rdropWhile p = [] then xs.rdropWhile p
      else xs ++ ys.rdropWhile p := by
  unfold List.rdropWhile
  rw [List.reverse_append, List.dropWhile_append]
  by_cases h : (ys.reverse.dropWhile p).isEmpty
  · rw [if_pos h, if_pos]
    rw [List.isEmpty_iff] at h
    rw [h]
    rfl
  · rw [if_neg h, if_neg]
    · rw [List.reverse_append, List.reverse_reverse]
    · rw [List.isEmpty_iff] at h
      intro he
      apply h
      have := congrArg List.reverse he
      rw [List.reverse_reverse] at this
      simpa using this

theorem wellEscaped_amp (l : List Char) :
    wellEscaped (("&amp;".data) ++ l) = wellEscaped l := rfl

theorem wellEscaped_lt (l : List Char) :
    wellEscaped (("&lt;".data) ++ l) = wellEscaped l := rfl

theorem wellEscaped_gt (l : List Char) :
    wellEscaped (("&gt;".data) ++ l) = wellEscaped l := rfl

theorem wellEscaped_br (l : List Char) :
    wellEscaped (("<br/>".data) ++ l) = wellEscaped l := rfl

theorem wellEscaped_cons_safe {c : Char} (hc1 : c ≠ '&') (hc2 : c ≠ '<')
    (hc3 : c ≠ '>') (l : List Char) :
    wellEscaped (c :: l) = wellEscaped l := by
  rw [wellEscaped.eq_def]
  split <;> simp_all

theorem isPyWs_safe {c : Char} (h : isPyWs c = true) :
    c ≠ '&' ∧ c ≠ '<' ∧ c ≠ '>' := by
  refine ⟨?_, ?_, ?_⟩ <;> intro he <;> subst he <;> simp [isPyWs] at h

theorem wellEscaped_brEsc (t : List Char) :
    wellEscaped (brReplace (escapeXml t)) = true := by
  induction t with
  | nil => rfl
  | cons c cs ih =>
    have hsplit : brReplace (escapeXml (c :: cs))
        = brReplace (escChar c) ++ brReplace (escapeXml cs) := by
      simp [brReplace, escapeXml]
    rw [hsplit]
    by_cases h1 : c = '&'
    · subst h1
      rw [show brReplace (escChar '&') = ("&amp;".data) from rfl, wellEscaped_amp]
      exact ih
    by_cases h2 : c = '<'
    · subst h2
      rw [show brReplace (escChar '<') = ("&lt;".data) from rfl, wellEscaped_lt]
      exact ih
    by_cases h3 : c = '>'
    · subst h3
      rw [show brReplace (escChar '>') = ("&gt;".data) from rfl, wellEscaped_gt]
      exact ih
    by_cases h4 : c = '\n'
    · subst h4
      rw [show brReplace (escChar '\n') = ("<br/>".data) from rfl, wellEscaped_br]
      exact ih
    · rw [show brReplace (escChar c) = [c] by
          simp [escChar, brChar, brReplace, h1, h2, h3, h4]]
      rw [List.singleton_append, wellEscaped_cons_safe h1 h2 h3]
      exact ih

theorem wellEscaped_dropWhile {l : List Char} (h : wellEscaped l = true) :
    wellEscaped (l.dropWhile isPyWs) = true := by
  induction l with
  | nil => exact h
  | cons c cs ih =>
    by_cases hw : isPyWs c
    · obtain ⟨h1, h2, h3⟩ := isPyWs_safe hw
      rw [List.dropWhile_cons, if_pos hw]
      rw [wellEscaped_cons_safe h1 h2 h3] at h
      exact ih h
    · rw [List.dropWhile_cons, if_neg hw]
      exact h


theorem wellEscaped_rdropWhile : ∀ {l : List Char}, wellEscaped l = true →
    wellEscaped (l.rdropWhile isPyWs) = true := by
  intro l
  induction l using wellEscaped.induct with
  | case1 => intro _; rfl
  | case2 r ih =>
    intro h
    rw [show ('&' :: 'a' :: 'm' :: 'p' :: ';' :: r) = ("&amp;".data) ++ r from rfl,
      rdropWhile_append]
    rw [show ('&' :: 'a' :: 'm' :: 'p' :: ';' :: r) = ("&amp;".data) ++ r from rfl,
      wellEscaped_amp] at h
    by_cases hr : r.rdropWhile isPyWs = []
    · rw [if_pos hr]
      decide
    · rw [if_neg hr, wellEscaped_amp]
      exact ih h
  | case3 r ih =>
    intro h
    rw [show ('&' :: 'l' :: 't' :: ';' :: r) = ("&lt;".data) ++ r from rfl,
      rdropWhile_append]
    rw [show ('&' :: 'l' :: 't' :: ';' :: r) = ("&lt;".data) ++ r from rfl,
      wellEscaped_lt] at h
    by_cases hr : r.rdropWhile isPyWs = []
    · rw [if_pos hr]
      decide
    · rw [if_neg hr, wellEscaped_lt]
      exact ih h
  | case4 r ih =>
    intro h
    rw [show ('&' :: 'g' :: 't' :: ';' :: r) = ("&gt;".data) ++ r from rfl,
      rdropWhile_append]
    rw [show ('&' :: 'g' :: 't' :: ';' :: r) = ("&gt;".data) ++ r from rfl,
      wellEscaped_gt] at h
    by_cases hr : r.rdropWhile isPyWs = []
    · rw [if_pos hr]
      decide
    · rw [if_neg hr, wellEscaped_gt]
      exact ih h
  | case5 r ih =>
    intro h
    rw [show ('<' :: 'b' :: 'r' :: '/' :: '>' :: r) = ("<br/>".data) ++ r from rfl,
      rdropWhile_append]
    rw [show ('<' :: 'b' :: 'r' :: '/' :: '>' :: r) = ("<br/>".data) ++ r from rfl,
      wellEscaped_br] at h
    by_cases hr : r.rdropWhile isPyWs = []
    · rw [if_pos hr]
      decide
    · rw [if_neg hr, wellEscaped_br]
      exact ih h
  | case6 tail h1 h2 h3 =>
    intro h
    rw [wellEscaped.eq_6 tail h1 h2 h3] at h
    cases h
  | case7 tail h1 =>
    intro h
    rw [wellEscaped.eq_7 tail h1] at h
    cases h
  | case8 tail =>
    intro h
    rw [wellEscaped.eq_8 tail] at h
    cases h
  | case9 head cs e1 e2 e3 e4 n1 n2 n3 ih =>
    intro h
    have hn1 : head ≠ '&' := n1
    have hn2 : head ≠ '<' := n2
    have hn3 : head ≠ '>' := n3
    rw [wellEscaped_cons_safe hn1 hn2 hn3] at h
    rw [show (head :: cs) = [head] ++ cs from rfl, rdropWhile_append]
    by_cases hr : cs.rdropWhile isPyWs = []
    · rw [if_pos hr, List.rdropWhile_singleton]
      by_cases hw : isPyWs head
      · rw [if_pos hw]
        rfl
      · rw [if_neg hw]
        rw [wellEscaped_cons_safe hn1 hn2 hn3]
        rfl
    · rw [if_neg hr, List.singleton_append, wellEscaped_cons_safe hn1 hn2 hn3]
      exact ih h

/-- C7: for every text input, the paragraph markup produced by
`text_to_paragraph_html` is accepted by the `wellEscaped` scanner:
every `&` in it begins one of the entities `&amp;`/`&lt;`/`&gt;`, every
`<` begins the inserted `<br/>` tag and no bare `>` occurs — so no
unescaped `&`, `<` or `>` from the user text reaches the serializer. -/
theorem C7_markup_escaped (s : List Char) :
    wellEscaped (text_to_paragraph_html s) = true := by
  rw [text_to_paragraph_html]
  by_cases h : (pyStrip (escapeXml (crlfToLf s))).isEmpty
  · rw [if_pos h]
    decide
  · rw [if_neg h]
    rw [pyStrip]
    exact wellEscaped_rdropWhile (wellEscaped_dropWhile (wellEscaped_brEsc (crlfToLf s)))

/-- C9: the auto-generated conclusion depends only on the first five
findings (the sentence for any findings list equals the sentence for
its 5-element prefix, so findings beyond index 5 are silently omitted),
and for a nonempty list the sentence embeds the comma-joined first five
findings in their given order. -/
theorem C9_conclusion_first_five :
    (∀ (d nv : List Char) (hs : List (List Char)),
      generate_conclusion_short d nv hs = generate_conclusion_short d nv (hs.take 5)) ∧
    (∀ (d nv x : List Char) (xs : List (List Char)),
      ∃ pre post : List Char,
        generate_conclusion_short d nv (x :: xs)
          = pre ++ List.intercalate (", ".data) ((x :: xs).take 5) ++ post) := by
  constructor
  · intro d nv hs
    cases hs with
    | nil => rfl
    | cons x xs =>
      simp [generate_conclusion_short, List.take_succ_cons, List.take_take]
  · intro d nv x xs
    refine ⟨d ++ (": ".data) ++ (("Riesgo ".data) ++ nv.map Char.toLower) ++
      (". Prioridad ".data) ++
      (if nv = ("Alto".data) then ("inmediata".data)
       else if nv = ("Medio".data) then ("programada".data)
       else ("rutinaria".data)) ++ (". Hallazgos: ".data),
      (". Acción: corregir desviación y registrar OT.".data), ?_⟩
    simp [generate_conclusion_short, List.append_assoc]



/-! ### C10 infrastructure: well-formed token lists -/

/-- Well-formed token lists: word runs are nonempty and made of word
characters, other-characters are non-word, and no two word runs are
adjacent (runs are maximal). -/
inductive WFToks : List Tok → Prop
  | nil : WFToks []
  | other (c : Char) (rest : List Tok) :
      isWordChar c = false → WFToks rest → WFToks (.other c :: rest)
  | wordNil (X : List Char) :
      X ≠ [] → (∀ a ∈ X, isWordChar a = true) → WFToks [.word X]
  | wordOther (X : List Char) (c : Char) (rest : List Tok) :
      X ≠ [] → (∀ a ∈ X, isWordChar a = true) → isWordChar c = false →
      WFToks rest → WFToks (.word X :: .other c :: rest)

theorem detok_tokAux (t : List Char) :
    ∀ acc, detok (tokAux acc t) = acc.reverse ++ t := by
  induction t with
  | nil =>
    intro acc
    by_cases h : acc.isEmpty
    · rw [tokAux, if_pos h]
      rw [List.isEmpty_iff] at h
      simp [h, detok]
    · rw [tokAux, if_neg h]
      simp [detok]
  | cons c cs ih =>
    intro acc
    by_cases hw : isWordChar c
    · rw [tokAux, if_pos hw, ih]
      simp
    · rw [tokAux, if_neg hw]
      by_cases he : acc.isEmpty
      · rw [if_pos he]
        rw [List.isEmpty_iff] at he
        simp [detok, ih, he]
      · rw [if_neg he]
        simp [detok, ih]

theorem detok_tokenize (t : List Char) : detok (tokenize t) = t := by
  rw [tokenize, detok_tokAux]
  rfl

theorem WFToks_tokAux (t : List Char) :
    ∀ acc, (∀ a ∈ acc, isWordChar a = true) → WFToks (tokAux acc t) := by
  induction t with
  | nil =>
    intro acc hacc
    by_cases h : acc.isEmpty
    · rw [tokAux, if_pos h]
      exact WFToks.nil
    · rw [tokAux, if_neg h]
      rw [List.isEmpty_iff] at h
      exact WFToks.wordNil _ (by simpa using h) (by simpa using hacc)
  | cons c cs ih =>
    intro acc hacc
    by_cases hw : isWordChar c
    · rw [tokAux, if_pos hw]
      exact ih _ (by
        intro a ha
        rcases List.mem_cons.1 ha with rfl | hm
        · exact hw
        · exact hacc a hm)
    · rw [tokAux, if_neg hw]
      by_cases he : acc.isEmpty
      · rw [if_pos he]
        exact WFToks.other c _ (by simpa using hw) (ih [] (by simp))
      · rw [if_neg he]
        rw [List.isEmpty_iff] at he
        exact WFToks.wordOther _ c _ (by simpa using he) (by simpa using hacc)
          (by simpa using hw) (ih [] (by simp))

theorem WFToks_tokenize (t : List Char) : WFToks (tokenize t) :=
  WFToks_tokAux t [] (by simp)

theorem tokAux_words (X : List Char) :
    ∀ (acc t : List Char), (∀ a ∈ X, isWordChar a = true) →
      tokAux acc (X ++ t) = tokAux (X.reverse ++ acc) t := by
  induction X with
  | nil => intro acc t _; simp
  | cons x xs ih =>
    intro acc t hall
    rw [List.cons_append, tokAux, if_pos (hall x (by simp)), ih (x :: acc) t
      (fun a ha => hall a (by simp [ha]))]
    simp

theorem tokenize_detok {ts : List Tok} (h : WFToks ts) :
    tokenize (detok ts) = ts := by
  induction h with
  | nil => rfl
  | other c rest hnw _ ih =>
    rw [detok, tokenize, tokAux, if_neg (by simp [hnw]), if_pos (by simp)]
    rw [tokenize] at ih
    rw [ih]
  | wordNil X hne hall =>
    rw [detok, tokenize, show (X ++ detok [] : List Char) = X ++ [] from rfl,
      tokAux_words X [] [] hall]
    rw [tokAux, List.append_nil, if_neg (by simpa using hne)]
    simp
  | wordOther X c rest hne hall hnw _ ih =>
    rw [detok, detok, tokenize, tokAux_words X [] _ hall, List.append_nil]
    rw [tokAux, if_neg (by simp [hnw]), if_neg (by simpa using hne)]
    rw [tokenize] at ih
    rw [ih]
    simp

/-- Mapping the word runs through a content-preserving function keeps a
token list well formed. -/
theorem WFToks_map_word (g : List Char → List Char)
    (hg : ∀ X, X ≠ [] → (∀ a ∈ X, isWordChar a = true) →
      (g X ≠ [] ∧ ∀ a ∈ g X, isWordChar a = true))
    {ts : List Tok} (h : WFToks ts) :
    WFToks (ts.map (fun tk => match tk with
      | .word X => .word (g X) | .other c => .other c)) := by
  induction h with
  | nil => exact WFToks.nil
  | other c rest hnw _ ih => exact WFToks.other c _ hnw ih
  | wordNil X hne hall =>
    exact WFToks.wordNil _ (hg X hne hall).1 (hg X hne hall).2
  | wordOther X c rest hne hall hnw _ ih =>
    exact WFToks.wordOther _ c _ (hg X hne hall).1 (hg X hne hall).2 hnw ih


/-! ### C10 infrastructure: characterising the substitution pass -/

/-- One replacement rule applied to one word run. -/
def wordApply (Y : List Char) (p : List Char × List Char) : List Char :=
  if lowWord Y = p.1 then p.2 else Y

/-- A replacement string usable inside a word run. -/
def goodWord (r : List Char) : Prop :=
  r ≠ [] ∧ ∀ a ∈ r, isWordChar a = true

instance : DecidablePred goodWord := fun r => by
  unfold goodWord
  infer_instance

theorem rules_good : ∀ p ∈ rules, goodWord p.2 := by decide

theorem subTok_eq_wordMap (w r : List Char) (tk : Tok) :
    subTok w r tk = (match tk with
      | .word X => Tok.word (wordApply X (w, r)) | .other c => .other c) := by
  cases tk with
  | word X => by_cases h : lowWord X = w <;> simp [subTok, wordApply, h]
  | other c => rfl

theorem tokenize_wordSub {w r : List Char} (hr : goodWord r) (t : List Char) :
    tokenize (wordSub w r t) = (tokenize t).map (subTok w r) := by
  rw [wordSub]
  rw [List.map_congr_left (fun tk _ => subTok_eq_wordMap w r tk)]
  refine tokenize_detok (WFToks_map_word _ ?_ (WFToks_tokenize t))
  intro X hne hall
  rw [wordApply]
  by_cases h : lowWord X = w
  · rw [if_pos h]
    exact ⟨hr.1, hr.2⟩
  · rw [if_neg h]
    exact ⟨hne, hall⟩

theorem wordSub_noMatch {w r t : List Char}
    (h : hasWordMatch w t = false) : wordSub w r t = t := by
  rw [wordSub]
  have hmap : (tokenize t).map (subTok w r) = (tokenize t).map id := by
    apply List.map_congr_left
    intro tk htk
    rw [hasWordMatch, List.any_eq_false] at h
    have hne := h tk htk
    show subTok w r tk = tk
    cases tk with
    | word X =>
      simp only [decide_eq_true_eq] at hne
      rw [subTok, if_neg (by simpa using hne)]
    | other c => rfl
  rw [hmap, List.map_id, detok_tokenize]

/-- The text component of the conditional replacement pass. -/
def textAfterRules (rs : List (List Char × List Char)) (t : List Char) :
    List Char :=
  rs.foldl (fun s p => wordSub p.1 p.2 s) t

theorem fixes_fold_fst (rs : List (List Char × List Char)) :
    ∀ (p : List Char × List FixMsg),
      (rs.foldl
        (fun (p : List Char × List FixMsg) rule =>
          if hasWordMatch rule.1 p.1 then
            (wordSub rule.1 rule.2 p.1, p.2 ++ [FixMsg.repl rule.1 rule.2])
          else p) p).1 = textAfterRules rs p.1 := by
  induction rs with
  | nil => intro p; rfl
  | cons rule rest ih =>
    intro p
    rw [List.foldl_cons, textAfterRules, List.foldl_cons]
    by_cases h : hasWordMatch rule.1 p.1
    · rw [if_pos h]
      exact ih _
    · rw [if_neg h]
      rw [show wordSub rule.1 rule.2 p.1 = p.1 from
        wordSub_noMatch (by simpa using h)]
      exact ih _

theorem bsf_text (t : List Char) :
    (basic_spanish_fixes t).1
      = capFirst (textAfterRules rules (normalize_spaces t)) := by
  rw [basic_spanish_fixes]
  rw [← fixes_fold_fst rules (normalize_spaces t, [])]
  generalize (rules.foldl
    (fun (p : List Char × List FixMsg) rule =>
      if hasWordMatch rule.1 p.1 then
        (wordSub rule.1 rule.2 p.1, p.2 ++ [FixMsg.repl rule.1 rule.2])
      else p) (normalize_spaces t, [])) = st
  rcases st with ⟨txt, msgs⟩
  cases txt with
  | nil => rfl
  | cons c cs =>
    dsimp only
    by_cases h : pyIsLower c
    · rw [if_pos h]
    · rw [if_neg h]
      rw [capFirst, if_neg (by simpa using h)]

/-- All nine rules folded over one token / one word run. -/
def applyRulesTok (tk : Tok) : Tok :=
  rules.foldl (fun tk p => subTok p.1 p.2 tk) tk

def applyRulesWord (X : List Char) : List Char :=
  rules.foldl wordApply X

theorem foldl_subTok_word (rs : List (List Char × List Char)) :
    ∀ X, rs.foldl (fun tk p => subTok p.1 p.2 tk) (.word X)
      = .word (rs.foldl wordApply X) := by
  induction rs with
  | nil => intro X; rfl
  | cons p rest ih =>
    intro X
    rw [List.foldl_cons, List.foldl_cons]
    rw [show subTok p.1 p.2 (.word X) = Tok.word (wordApply X p) by
      by_cases h : lowWord X = p.1 <;> simp [subTok, wordApply, h]]
    exact ih _

theorem foldl_subTok_other (rs : List (List Char × List Char)) (c : Char) :
    rs.foldl (fun tk p => subTok p.1 p.2 tk) (.other c) = .other c := by
  induction rs with
  | nil => rfl
  | cons p rest ih => rw [List.foldl_cons]; exact ih

theorem applyRulesTok_word (X : List Char) :
    applyRulesTok (.word X) = .word (applyRulesWord X) :=
  foldl_subTok_word rules X

theorem applyRulesTok_other (c : Char) :
    applyRulesTok (.other c) = .other c :=
  foldl_subTok_other rules c

theorem textAfterRules_tokens (rs : List (List Char × List Char)) :
    ∀ t : List Char, (∀ p ∈ rs, goodWord p.2) →
      textAfterRules rs t
        = detok ((tokenize t).map
            (fun tk => rs.foldl (fun tk p => subTok p.1 p.2 tk) tk)) := by
  induction rs with
  | nil =>
    intro t _
    rw [textAfterRules, List.foldl_nil]
    simp only [List.foldl_nil]
    rw [show ((tokenize t).map fun tk => tk) = (tokenize t).map id from rfl]
    rw [List.map_id, detok_tokenize]
  | cons p rest ih =>
    intro t hgood
    rw [textAfterRules, List.foldl_cons]
    rw [show rest.foldl (fun s q => wordSub q.1 q.2 s) (wordSub p.1 p.2 t)
      = textAfterRules rest (wordSub p.1 p.2 t) from rfl]
    rw [ih _ (fun q hq => hgood q (by simp [hq]))]
    rw [tokenize_wordSub (hgood p (by simp)) t, List.map_map]
    rfl

theorem pyIsLower_mem {c : Char} (h : pyIsLower c = true) : c ∈ lowerAscii := by
  rw [pyIsLower] at h
  exact List.mem_of_elem_eq_true h

theorem pyIsLower_isWordChar {c : Char} (h : pyIsLower c = true) :
    isWordChar c = true := by
  have hm := pyIsLower_mem h
  fin_cases hm <;> decide

theorem isWordChar_pyToUpper {c : Char} (h : isWordChar c = true) :
    isWordChar (pyToUpper c) = true := by
  by_cases hl : pyIsLower c
  · have hm := pyIsLower_mem hl
    fin_cases hm <;> decide
  · rw [pyToUpper, if_neg hl]
    exact h

theorem pyIsLower_pyToUpper_false {c : Char} (h : pyIsLower c = true) :
    pyIsLower (pyToUpper c) = false := by
  have hm := pyIsLower_mem h
  fin_cases hm <;> decide

theorem toLower_pyToUpper {c : Char} :
    Char.toLower (pyToUpper c) = Char.toLower c := by
  by_cases hl : pyIsLower c
  · have hm := pyIsLower_mem hl
    fin_cases hm <;> decide
  · rw [pyToUpper, if_neg hl]

theorem capFirst_good (X : List Char) (hne : X ≠ [])
    (hall : ∀ a ∈ X, isWordChar a = true) :
    capFirst X ≠ [] ∧ ∀ a ∈ capFirst X, isWordChar a = true := by
  cases X with
  | nil => exact absurd rfl hne
  | cons c cs =>
    rw [capFirst]
    by_cases h : pyIsLower c
    · rw [if_pos h]
      refine ⟨by simp, ?_⟩
      intro a ha
      rcases List.mem_cons.1 ha with rfl | hm
      · exact isWordChar_pyToUpper (hall c (by simp))
      · exact hall a (by simp [hm])
    · rw [if_neg h]
      exact ⟨by simp, hall⟩

theorem capFirst_idem (v : List Char) : capFirst (capFirst v) = capFirst v := by
  cases v with
  | nil => rfl
  | cons c cs =>
    rw [capFirst]
    by_cases h : pyIsLower c
    · rw [if_pos h, capFirst, if_neg (by simp [pyIsLower_pyToUpper_false h])]
    · rw [if_neg h, capFirst, if_neg h]

theorem lowWord_capFirst (X : List Char) : lowWord (capFirst X) = lowWord X := by
  cases X with
  | nil => rfl
  | cons c cs =>
    rw [capFirst]
    by_cases h : pyIsLower c
    · rw [if_pos h, lowWord, lowWord, List.map_cons, List.map_cons,
        toLower_pyToUpper]
    · rw [if_neg h]

/-- Capitalisation of the first character, at token level. -/
def capTokOne : Tok → Tok
  | .word X => .word (capFirst X)
  | .other c => .other c

def capToks : List Tok → List Tok
  | [] => []
  | tk :: rest => capTokOne tk :: rest

theorem capFirst_detok {ts : List Tok} (h : WFToks ts) :
    capFirst (detok ts) = detok (capToks ts) := by
  cases h with
  | nil => rfl
  | other c rest hnw _ =>
    rw [detok, capToks, capTokOne, detok, capFirst,
      if_neg (by
        intro hl
        rw [pyIsLower_isWordChar hl] at hnw
        cases hnw)]
  | wordNil X hne hall =>
    rcases X with _ | ⟨x, xs⟩
    · exact absurd rfl hne
    · simp [detok, capToks, capTokOne]
  | wordOther X c rest hne hall hnw _ =>
    rcases X with _ | ⟨x, xs⟩
    · exact absurd rfl hne
    · rw [detok, capToks, capTokOne, detok]
      rw [List.cons_append, capFirst, capFirst]
      by_cases h : pyIsLower x
      · rw [if_pos h, if_pos h, List.cons_append]
      · rw [if_neg h, if_neg h, List.cons_append]

theorem WFToks_capToks {ts : List Tok} (h : WFToks ts) :
    WFToks (capToks ts) := by
  cases h with
  | nil => exact WFToks.nil
  | other c rest hnw hrest => exact WFToks.other c rest hnw hrest
  | wordNil X hne hall =>
    exact WFToks.wordNil _ (capFirst_good X hne hall).1 (capFirst_good X hne hall).2
  | wordOther X c rest hne hall hnw hrest =>
    exact WFToks.wordOther _ c rest (capFirst_good X hne hall).1
      (capFirst_good X hne hall).2 hnw hrest


/-! ### C10 infrastructure: stability of replaced words -/

/-- A word run the second pass leaves unchanged: whenever it matches a
rule's pattern (up to case), it already *is* that rule's replacement. -/
def StableWord (Y : List Char) : Prop :=
  ∀ p ∈ rules, lowWord Y = p.1 → Y = p.2

instance : DecidablePred StableWord := fun Y => by
  unfold StableWord
  infer_instance

theorem stableWord_applyRules (X : List Char) :
    StableWord (applyRulesWord X) := by
  rw [applyRulesWord, rules]
  simp only [List.foldl_cons, List.foldl_nil, wordApply]
  by_cases h1 : lowWord X = ("demasciado".data)
  · rw [if_pos h1]; decide
  rw [if_neg h1]
  by_cases h2 : lowWord X = ("ubucacion".data)
  · rw [if_pos h2]; decide
  rw [if_neg h2]
  by_cases h3 : lowWord X = ("ubicacion".data)
  · rw [if_pos h3]; decide
  rw [if_neg h3]
  by_cases h4 : lowWord X = ("observacion".data)
  · rw [if_pos h4]; decide
  rw [if_neg h4]
  by_cases h5 : lowWord X = ("conclucion".data)
  · rw [if_pos h5]; decide
  rw [if_neg h5]
  by_cases h6 : lowWord X = ("electrico".data)
  · rw [if_pos h6]; decide
  rw [if_neg h6]
  by_cases h7 : lowWord X = ("mecanico".data)
  · rw [if_pos h7]; decide
  rw [if_neg h7]
  by_cases h8 : lowWord X = ("inspeccion".data)
  · rw [if_pos h8]; decide
  rw [if_neg h8]
  by_cases h9 : lowWord X = ("epp".data)
  · rw [if_pos h9]; decide
  rw [if_neg h9]
  intro p hp heq
  rw [rules] at hp
  simp only [List.mem_cons, List.not_mem_nil, or_false] at hp
  rcases hp with rfl | rfl | rfl | rfl | rfl | rfl | rfl | rfl | rfl <;>
    simp only [] at heq <;> first
      | exact absurd heq h1
      | exact absurd heq h2
      | exact absurd heq h3
      | exact absurd heq h4
      | exact absurd heq h5
      | exact absurd heq h6
      | exact absurd heq h7
      | exact absurd heq h8
      | exact absurd heq h9

theorem stableWord_capFirst {Y : List Char} (h : StableWord Y) :
    StableWord (capFirst Y) := by
  intro p hp heq
  rw [lowWord_capFirst] at heq
  have hY := h p hp heq
  subst hY
  rw [rules] at hp
  simp only [List.mem_cons, List.not_mem_nil, or_false] at hp
  rcases hp with rfl | rfl | rfl | rfl | rfl | rfl | rfl | rfl | rfl <;>
    revert heq <;> decide

/-- Tokens untouched by a second substitution pass. -/
def StableTok (tk : Tok) : Prop :=
  ∀ p ∈ rules, subTok p.1 p.2 tk = tk

theorem stableTok_of_word {Y : List Char} (h : StableWord Y) :
    StableTok (.word Y) := by
  intro p hp
  rw [subTok]
  by_cases he : lowWord Y = p.1
  · rw [if_pos he, h p hp he]
  · rw [if_neg he]

theorem stableTok_other (c : Char) : StableTok (.other c) :=
  fun _ _ => rfl

/-- Every token after the full pass (substitutions then capitalisation)
is stable. -/
theorem stableTok_pass (ts : List Tok) :
    ∀ tk ∈ capToks (ts.map applyRulesTok), StableTok tk := by
  intro tk htk
  have hshape : tk ∈ (ts.map applyRulesTok) ∨
      ∃ tk0 ∈ ts.map applyRulesTok, tk = capTokOne tk0 := by
    cases hm : ts.map applyRulesTok with
    | nil => rw [hm] at htk; cases htk
    | cons t0 rest =>
      rw [hm] at htk
      rw [capToks] at htk
      rcases List.mem_cons.1 htk with rfl | hmem
      · exact Or.inr ⟨t0, by simp, rfl⟩
      · exact Or.inl (by simp [hmem])
  have hbase : ∀ tk1 ∈ ts.map applyRulesTok, StableTok tk1 := by
    intro tk1 htk1
    obtain ⟨tk0, _, rfl⟩ := List.mem_map.1 htk1
    cases tk0 with
    | word X =>
      rw [applyRulesTok_word]
      exact stableTok_of_word (stableWord_applyRules X)
    | other c =>
      rw [applyRulesTok_other]
      exact stableTok_other c
  rcases hshape with hmem | ⟨tk0, htk0, rfl⟩
  · exact hbase tk hmem
  · have := hbase tk0 htk0
    cases tk0 with
    | word X =>
      rw [capTokOne]
      apply stableTok_of_word
      apply stableWord_capFirst
      intro p hp heq
      have := this p hp
      rw [subTok, if_pos heq] at this
      exact (Tok.word.inj this).symm
    | other c =>
      rw [capTokOne]
      exact stableTok_other c


/-! ### C10 infrastructure: shape invariants of normalized text -/

/-- Scanner: no two adjacent spaces.  The flag records whether the
previous character was a space. -/
def noSpPairAux : Bool → List Char → Bool
  | _, [] => true
  | prev, c :: cs => !(prev && (c = ' ')) && noSpPairAux (c = ' ') cs

theorem noSpPairAux_cons (b : Bool) (c : Char) (cs : List Char) :
    noSpPairAux b (c :: cs) = (!(b && (c = ' ')) && noSpPairAux (c = ' ') cs) :=
  rfl

/-- Space-flag state after scanning `xs` from state `b`. -/
def spState : Bool → List Char → Bool
  | b, [] => b
  | _, c :: cs => spState (c = ' ') cs

/-- Scanner: no three adjacent newlines.  The counter records the number
of preceding consecutive newlines, capped at two. -/
def noNl3Aux : Nat → List Char → Bool
  | _, [] => true
  | k, c :: cs =>
    if c = '\n' then decide (k < 2) && noNl3Aux (min (k + 1) 2) cs
    else noNl3Aux 0 cs

theorem noNl3Aux_cons (k : Nat) (c : Char) (cs : List Char) :
    noNl3Aux k (c :: cs) = (if c = '\n'
      then decide (k < 2) && noNl3Aux (min (k + 1) 2) cs
      else noNl3Aux 0 cs) :=
  rfl

/-- Newline-run state after scanning `xs` from state `k`. -/
def nlState : Nat → List Char → Nat
  | k, [] => k
  | k, c :: cs => nlState (if c = '\n' then min (k + 1) 2 else 0) cs

theorem noSpPairAux_append (xs : List Char) :
    ∀ (b : Bool) (ys : List Char),
      noSpPairAux b (xs ++ ys)
        = (noSpPairAux b xs && noSpPairAux (spState b xs) ys) := by
  induction xs with
  | nil => intro b ys; simp [noSpPairAux, spState]
  | cons c cs ih =>
    intro b ys
    rw [List.cons_append, noSpPairAux, noSpPairAux, ih, spState,
      Bool.and_assoc]

theorem noNl3Aux_append (xs : List Char) :
    ∀ (k : Nat) (ys : List Char),
      noNl3Aux k (xs ++ ys) = (noNl3Aux k xs && noNl3Aux (nlState k xs) ys) := by
  induction xs with
  | nil => intro k ys; simp [noNl3Aux, nlState]
  | cons c cs ih =>
    intro k ys
    rw [List.cons_append, noNl3Aux, noNl3Aux, nlState]
    by_cases h : c = '\n'
    · rw [if_pos h, if_pos h, if_pos h, ih, Bool.and_assoc]
    · rw [if_neg h, if_neg h, if_neg h, ih]

theorem wordChar_not_special {c : Char} (h : isWordChar c = true) :
    c ≠ '\r' ∧ c ≠ '\t' ∧ c ≠ '\n' ∧ c ≠ ' ' ∧ isPyWs c = false := by
  refine ⟨?_, ?_, ?_, ?_, ?_⟩
  · intro he; rw [he] at h; exact absurd h (by decide)
  · intro he; rw [he] at h; exact absurd h (by decide)
  · intro he; rw [he] at h; exact absurd h (by decide)
  · intro he; rw [he] at h; exact absurd h (by decide)
  · by_cases hw : isPyWs c
    · simp only [isPyWs, Bool.or_eq_true, decide_eq_true_eq] at hw
      rcases hw with ((((he | he) | he) | he) | he) | he <;>
        (rw [he] at h; exact absurd h (by decide))
    · simpa using hw

theorem noSpPairAux_word {X : List Char}
    (hall : ∀ a ∈ X, isWordChar a = true) :
    ∀ b, noSpPairAux b X = true := by
  induction X with
  | nil => intro b; rfl
  | cons c cs ih =>
    intro b
    have hc := wordChar_not_special (hall c (by simp))
    rw [noSpPairAux, show (decide (c = ' ')) = false by simp [hc.2.2.2.1]]
    simp only [Bool.and_false, Bool.not_false, Bool.true_and]
    exact ih (fun a ha => hall a (by simp [ha])) false

theorem spState_word {X : List Char} (hne : X ≠ [])
    (hall : ∀ a ∈ X, isWordChar a = true) (b : Bool) :
    spState b X = false := by
  induction X generalizing b with
  | nil => exact absurd rfl hne
  | cons c cs ih =>
    rw [spState]
    cases cs with
    | nil =>
      rw [spState]
      simp [(wordChar_not_special (hall c (by simp))).2.2.2.1]
    | cons d ds =>
      exact ih (by simp) (fun a ha => hall a (by simp [ha])) _

theorem noNl3Aux_word {X : List Char}
    (hall : ∀ a ∈ X, isWordChar a = true) :
    ∀ k, noNl3Aux k X = true := by
  induction X with
  | nil => intro k; rfl
  | cons c cs ih =>
    intro k
    have hc := wordChar_not_special (hall c (by simp))
    rw [noNl3Aux, if_neg hc.2.2.1]
    exact ih (fun a ha => hall a (by simp [ha])) 0

theorem nlState_word {X : List Char} (hne : X ≠ [])
    (hall : ∀ a ∈ X, isWordChar a = true) (k : Nat) :
    nlState k X = 0 := by
  induction X generalizing k with
  | nil => exact absurd rfl hne
  | cons c cs ih =>
    rw [nlState, if_neg (wordChar_not_special (hall c (by simp))).2.2.1]
    cases cs with
    | nil => rfl
    | cons d ds => exact ih (by simp) (fun a ha => hall a (by simp [ha])) _

theorem collapseSpAux_fix {t : List Char} :
    ∀ b, (∀ c ∈ t, c ≠ '\t') → noSpPairAux b t = true →
      collapseSpAux b t = t := by
  induction t with
  | nil => intro b _ _; rfl
  | cons c cs ih =>
    intro b hnt hsp
    rw [noSpPairAux, Bool.and_eq_true] at hsp
    by_cases hc : c = ' '
    · subst hc
      have hb : b = false := by simpa using hsp.1
      subst hb
      rw [collapseSpAux, if_pos (by simp), if_neg (by simp)]
      have := ih true (fun a ha => hnt a (by simp [ha]))
        (by simpa using hsp.2)
      rw [this]
    · rw [collapseSpAux, if_neg (by
        simp only [Bool.or_eq_true, decide_eq_true_eq]
        rintro (he | he)
        · exact hc he
        · exact hnt c (by simp) he)]
      have := ih false (fun a ha => hnt a (by simp [ha]))
        (by simpa [hc] using hsp.2)
      rw [this]

theorem collapseNlAux_fix {t : List Char} :
    ∀ run, noNl3Aux (min run 2) t = true → collapseNlAux run t = t := by
  induction t with
  | nil => intro run _; rfl
  | cons c cs ih =>
    intro run hnl
    rw [noNl3Aux] at hnl
    by_cases hc : c = '\n'
    · subst hc
      rw [if_pos rfl, Bool.and_eq_true] at hnl
      have hrun : run < 2 := by
        have := hnl.1
        simp only [decide_eq_true_eq] at this
        omega
      rw [collapseNlAux, if_pos rfl, if_neg (by omega)]
      have harg : min (min run 2 + 1) 2 = min (run + 1) 2 := by omega
      rw [harg] at hnl
      rw [ih (run + 1) hnl.2]
    · rw [if_neg hc] at hnl
      rw [collapseNlAux, if_neg hc]
      rw [ih 0 (by simpa using hnl)]

theorem collapseSpAux_establish (t : List Char) :
    ∀ b, noSpPairAux b (collapseSpAux b t) = true := by
  induction t with
  | nil => intro b; rfl
  | cons c cs ih =>
    intro b
    by_cases hc : c = ' ' ∨ c = '\t'
    · rw [collapseSpAux, if_pos (by simpa using hc)]
      cases b with
      | true => exact ih true
      | false =>
        show noSpPairAux false (' ' :: collapseSpAux true cs) = true
        rw [noSpPairAux_cons]
        simp only [Bool.false_and, Bool.not_false, Bool.true_and]
        exact ih true
    · push_neg at hc
      rw [collapseSpAux, if_neg (by simpa using hc)]
      rw [noSpPairAux, show (decide (c = ' ')) = false by simp [hc.1]]
      simp only [Bool.and_false, Bool.not_false, Bool.true_and]
      exact ih false

theorem noSpPairAux_collapseNl {t : List Char} :
    ∀ k b, (2 ≤ k → b = false) → noSpPairAux b t = true →
      noSpPairAux b (collapseNlAux k t) = true := by
  induction t with
  | nil => intro k b _ _; rfl
  | cons c cs ih =>
    intro k b hkb hsp
    rw [noSpPairAux, Bool.and_eq_true] at hsp
    by_cases hc : c = '\n'
    · subst hc
      have hstate : (decide ('\n' = ' ')) = false := by decide
      by_cases hk : 2 ≤ k
      · rw [collapseNlAux, if_pos rfl, if_pos hk]
        exact ih (k + 1) b (fun _ => hkb hk)
          (by
            have := hsp.2
            rw [hstate] at this
            rw [hkb hk]
            exact this)
      · rw [collapseNlAux, if_pos rfl, if_neg hk]
        rw [noSpPairAux_cons, hstate]
        simp only [Bool.and_false, Bool.not_false, Bool.true_and]
        exact ih (k + 1) false (fun _ => rfl)
          (by have := hsp.2; rwa [hstate] at this)
    · rw [collapseNlAux, if_neg hc]
      rw [noSpPairAux, Bool.and_eq_true]
      refine ⟨hsp.1, ?_⟩
      by_cases hcsp : c = ' '
      · exact ih 0 _ (by omega) hsp.2
      · exact ih 0 _ (by omega) hsp.2

theorem collapseNlAux_establish (t : List Char) :
    ∀ k, noNl3Aux (min k 2) (collapseNlAux k t) = true := by
  induction t with
  | nil => intro k; rfl
  | cons c cs ih =>
    intro k
    by_cases hc : c = '\n'
    · subst hc
      by_cases hk : 2 ≤ k
      · rw [collapseNlAux, if_pos rfl, if_pos hk]
        have h1 : min k 2 = 2 := by omega
        have h2 : min (k + 1) 2 = 2 := by omega
        rw [h1, ← h2]
        exact ih (k + 1)
      · rw [collapseNlAux, if_pos rfl, if_neg hk]
        rw [noNl3Aux_cons, if_pos rfl]
        have h1 : (decide (min k 2 < 2)) = true := by
          simp only [decide_eq_true_eq]
          omega
        rw [h1, Bool.true_and]
        have h2 : min (min k 2 + 1) 2 = min (k + 1) 2 := by omega
        rw [h2]
        exact ih (k + 1)
    · rw [collapseNlAux, if_neg hc, noNl3Aux, if_neg hc]
      have := ih 0
      simpa using this


theorem band_elim {a b : Bool} (h : (a && b) = true) : a = true ∧ b = true := by
  constructor
  · exact (Bool.and_elim_left h)
  · exact (Bool.and_elim_right h)

theorem noSpPairAux_mono {b : Bool} {l : List Char}
    (h : noSpPairAux b l = true) : noSpPairAux false l = true := by
  cases l with
  | nil => rfl
  | cons c cs =>
    rw [noSpPairAux_cons] at h ⊢
    simp only [Bool.false_and, Bool.not_false, Bool.true_and]
    exact (band_elim h).2

theorem noSpPairAux_dropWhile {l : List Char} (p : Char → Bool) :
    ∀ b, noSpPairAux b l = true → noSpPairAux false (l.dropWhile p) = true := by
  induction l with
  | nil => intro b _; rfl
  | cons c cs ih =>
    intro b h
    rw [List.dropWhile_cons]
    by_cases hp : p c
    · rw [if_pos hp]
      exact ih _ ((band_elim (by rwa [noSpPairAux_cons] at h)).2)
    · rw [if_neg hp]
      exact noSpPairAux_mono h

theorem noSpPairAux_prefix {b : Bool} {xs ys : List Char}
    (h : noSpPairAux b (xs ++ ys) = true) : noSpPairAux b xs = true := by
  rw [noSpPairAux_append] at h
  exact (band_elim h).1

theorem noSpPairAux_rdropWhile {b : Bool} {l : List Char} (p : Char → Bool)
    (h : noSpPairAux b l = true) : noSpPairAux b (l.rdropWhile p) = true := by
  obtain ⟨ys, hys⟩ := List.rdropWhile_prefix p l
  rw [← hys] at h
  exact noSpPairAux_prefix h

theorem noNl3Aux_mono {l : List Char} :
    ∀ {k k' : Nat}, k' ≤ k → noNl3Aux k l = true → noNl3Aux k' l = true := by
  induction l with
  | nil => intro k k' _ _; rfl
  | cons c cs ih =>
    intro k k' hle h
    rw [noNl3Aux_cons] at h ⊢
    by_cases hc : c = '\n'
    · rw [if_pos hc] at h ⊢
      replace h := band_elim h
      have h1 : k < 2 := by
        have := h.1
        simp only [decide_eq_true_eq] at this
        omega
      rw [show (decide (k' < 2)) = true by simp only [decide_eq_true_eq]; omega,
        Bool.true_and]
      exact ih (by omega) h.2
    · rw [if_neg hc] at h ⊢
      exact h

theorem noNl3Aux_dropWhile {l : List Char} (p : Char → Bool) :
    ∀ k, noNl3Aux k l = true → noNl3Aux 0 (l.dropWhile p) = true := by
  induction l with
  | nil => intro k _; rfl
  | cons c cs ih =>
    intro k h
    rw [List.dropWhile_cons]
    by_cases hp : p c
    · rw [if_pos hp]
      rw [noNl3Aux_cons] at h
      by_cases hc : c = '\n'
      · rw [if_pos hc] at h
        exact ih _ (band_elim h).2
      · rw [if_neg hc] at h
        exact ih _ h
    · rw [if_neg hp]
      exact noNl3Aux_mono (by omega) h

theorem noNl3Aux_prefix {k : Nat} {xs ys : List Char}
    (h : noNl3Aux k (xs ++ ys) = true) : noNl3Aux k xs = true := by
  rw [noNl3Aux_append] at h
  exact (band_elim h).1

theorem noNl3Aux_rdropWhile {k : Nat} {l : List Char} (p : Char → Bool)
    (h : noNl3Aux k l = true) : noNl3Aux k (l.rdropWhile p) = true := by
  obtain ⟨ys, hys⟩ := List.rdropWhile_prefix p l
  rw [← hys] at h
  exact noNl3Aux_prefix h

theorem mem_crlfToLf {t : List Char} :
    ∀ c ∈ crlfToLf t, c ≠ '\r' ∧ (c ∈ t ∨ c = '\n') := by
  induction t using crlfToLf.induct with
  | case1 => intro c hc; cases hc
  | case2 =>
    intro c hc
    rw [crlfToLf, if_pos rfl] at hc
    rcases List.mem_singleton.1 hc with rfl
    exact ⟨by decide, Or.inr rfl⟩
  | case3 a ha =>
    intro c hc
    rw [crlfToLf, if_neg ha] at hc
    rcases List.mem_singleton.1 hc with rfl
    exact ⟨ha, Or.inl (by simp)⟩
  | case4 cs ih =>
    intro c hc
    rw [crlfToLf, if_pos rfl, if_pos rfl] at hc
    rcases List.mem_cons.1 hc with rfl | hm
    · exact ⟨by decide, Or.inr rfl⟩
    · obtain ⟨h1, h2⟩ := ih c hm
      exact ⟨h1, h2.imp (fun h => by simp [h]) id⟩
  | case5 d cs hd ih =>
    intro c hc
    rw [crlfToLf, if_pos rfl, if_neg hd] at hc
    rcases List.mem_cons.1 hc with rfl | hm
    · exact ⟨by decide, Or.inr rfl⟩
    · obtain ⟨h1, h2⟩ := ih c hm
      exact ⟨h1, h2.imp (fun h => by simp [List.mem_cons.1 h]) id⟩
  | case6 a d cs ha ih =>
    intro c hc
    rw [crlfToLf, if_neg ha] at hc
    rcases List.mem_cons.1 hc with rfl | hm
    · exact ⟨fun he => ha he, Or.inl (by simp)⟩
    · obtain ⟨h1, h2⟩ := ih c hm
      exact ⟨h1, h2.imp (fun h => by simp [List.mem_cons.1 h]) id⟩

theorem mem_collapseSpAux {t : List Char} :
    ∀ b c, c ∈ collapseSpAux b t → c = ' ' ∨ c ∈ t := by
  induction t with
  | nil => intro b c hc; cases hc
  | cons a cs ih =>
    intro b c hc
    rw [collapseSpAux] at hc
    by_cases ha : (a = ' ' || a = '\t') = true
    · rw [if_pos ha] at hc
      by_cases hb : b
      · rw [if_pos hb] at hc
        exact (ih _ _ hc).imp id (fun h => by simp [h])
      · rw [if_neg hb] at hc
        rcases List.mem_cons.1 hc with rfl | hm
        · exact Or.inl rfl
        · exact (ih _ _ hm).imp id (fun h => by simp [h])
    · rw [if_neg ha] at hc
      rcases List.mem_cons.1 hc with rfl | hm
      · exact Or.inr (by simp)
      · exact (ih _ _ hm).imp id (fun h => by simp [h])

theorem mem_collapseNlAux {t : List Char} :
    ∀ k c, c ∈ collapseNlAux k t → c ∈ t := by
  induction t with
  | nil => intro k c hc; cases hc
  | cons a cs ih =>
    intro k c hc
    rw [collapseNlAux] at hc
    by_cases ha : a = '\n'
    · rw [if_pos ha] at hc
      by_cases hk : 2 ≤ k
      · rw [if_pos hk] at hc
        simp [ih _ _ hc]
      · rw [if_neg hk] at hc
        rcases List.mem_cons.1 hc with rfl | hm
        · simp [ha]
        · simp [ih _ _ hm]
    · rw [if_neg ha] at hc
      rcases List.mem_cons.1 hc with rfl | hm
      · simp
      · simp [ih _ _ hm]

theorem mem_dropWhile {t : List Char} (p : Char → Bool) :
    ∀ c ∈ t.dropWhile p, c ∈ t := by
  induction t with
  | nil => intro c hc; cases hc
  | cons a cs ih =>
    intro c hc
    rw [List.dropWhile_cons] at hc
    by_cases hp : p a
    · rw [if_pos hp] at hc
      simp [ih c hc]
    · rw [if_neg hp] at hc
      exact hc

theorem mem_pyStrip {t : List Char} : ∀ c ∈ pyStrip t, c ∈ t := by
  intro c hc
  rw [pyStrip] at hc
  obtain ⟨ys, hys⟩ := List.rdropWhile_prefix isPyWs (t.dropWhile isPyWs)
  have : c ∈ t.dropWhile isPyWs := by
    rw [← hys]
    exact List.mem_append.2 (Or.inl hc)
  exact mem_dropWhile isPyWs c this

theorem collapseSpAux_no_tab {t : List Char} :
    ∀ b, ∀ c ∈ collapseSpAux b t, c ≠ '\t' := by
  induction t with
  | nil => intro b c hc; cases hc
  | cons a cs ih =>
    intro b c hc
    rw [collapseSpAux] at hc
    by_cases ha : (a = ' ' || a = '\t') = true
    · rw [if_pos ha] at hc
      by_cases hb : b
      · rw [if_pos hb] at hc
        exact ih _ c hc
      · rw [if_neg hb] at hc
        rcases List.mem_cons.1 hc with rfl | hm
        · decide
        · exact ih _ c hm
    · rw [if_neg ha] at hc
      rcases List.mem_cons.1 hc with rfl | hm
      · simp only [Bool.or_eq_true, decide_eq_true_eq] at ha
        push_neg at ha
        exact ha.2
      · exact ih _ c hm

theorem head_dropWhile {t : List Char} (p : Char → Bool) {c : Char}
    (h : (t.dropWhile p).head? = some c) : p c = false := by
  induction t with
  | nil => cases h
  | cons a cs ih =>
    rw [List.dropWhile_cons] at h
    by_cases hp : p a
    · rw [if_pos hp] at h
      exact ih h
    · rw [if_neg hp] at h
      rcases Option.some.inj h with rfl
      simpa using hp

theorem head_isPrefix {l₁ l₂ : List Char} (h : l₁ <+: l₂) (hne : l₁ ≠ []) :
    l₂.head? = l₁.head? := by
  obtain ⟨ys, rfl⟩ := h
  cases l₁ with
  | nil => exact absurd rfl hne
  | cons c cs => rfl

theorem pyStrip_headOK (t : List Char) :
    ∀ c, (pyStrip t).head? = some c → isPyWs c = false := by
  intro c hc
  rw [pyStrip] at hc
  have hpre := List.rdropWhile_prefix isPyWs (t.dropWhile isPyWs)
  have hne : (t.dropWhile isPyWs).rdropWhile isPyWs ≠ [] := by
    intro he
    rw [he] at hc
    cases hc
  rw [← head_isPrefix hpre hne] at hc
  exact head_dropWhile isPyWs hc

theorem pyStrip_lastOK (t : List Char) :
    ∀ c, (pyStrip t).getLast? = some c → isPyWs c = false := by
  intro c hc
  rw [pyStrip] at hc
  have hne : (t.dropWhile isPyWs).rdropWhile isPyWs ≠ [] := by
    intro he
    rw [he] at hc
    cases hc
  rw [List.getLast?_eq_getLast _ hne] at hc
  rcases Option.some.inj hc with rfl
  have := List.rdropWhile_last_not isPyWs (t.dropWhile isPyWs) hne
  simpa using this

theorem pyStrip_eq_self_ends {t : List Char}
    (h5 : ∀ c, t.head? = some c → isPyWs c = false)
    (h6 : ∀ c, t.getLast? = some c → isPyWs c = false) :
    pyStrip t = t := by
  rw [pyStrip]
  have hd : t.dropWhile isPyWs = t := by
    cases t with
    | nil => rfl
    | cons c cs =>
      rw [List.dropWhile_cons, if_neg (by simp [h5 c rfl])]
  rw [hd]
  refine List.rdropWhile_eq_self_iff.2 ?_
  intro hl
  rw [h6 (t.getLast hl) (List.getLast?_eq_getLast t hl)]
  simp

/-- `normalize_spaces` is the identity on text satisfying the
normal-form invariants. -/
theorem ns_fix {u : List Char}
    (h1 : ∀ c ∈ u, c ≠ '\r') (h2 : ∀ c ∈ u, c ≠ '\t')
    (h3 : noSpPairAux false u = true) (h4 : noNl3Aux 0 u = true)
    (h5 : ∀ c, u.head? = some c → isPyWs c = false)
    (h6 : ∀ c, u.getLast? = some c → isPyWs c = false) :
    normalize_spaces u = u := by
  rw [normalize_spaces, crlfToLf_eq_self h1, collapseSp,
    collapseSpAux_fix false h2 h3, collapseNl,
    collapseNlAux_fix 0 (by simpa using h4), pyStrip_eq_self_ends h5 h6]

/-- The six normal-form invariants hold for every `normalize_spaces`
output. -/
theorem ns_invariants (s : List Char) :
    (∀ c ∈ normalize_spaces s, c ≠ '\r') ∧
    (∀ c ∈ normalize_spaces s, c ≠ '\t') ∧
    noSpPairAux false (normalize_spaces s) = true ∧
    noNl3Aux 0 (normalize_spaces s) = true ∧
    (∀ c, (normalize_spaces s).head? = some c → isPyWs c = false) ∧
    (∀ c, (normalize_spaces s).getLast? = some c → isPyWs c = false) := by
  refine ⟨?_, ?_, ?_, ?_, pyStrip_headOK _, pyStrip_lastOK _⟩
  · intro c hc
    have hc1 := mem_pyStrip c hc
    rw [collapseNl] at hc1
    have hc2 := mem_collapseNlAux 0 c hc1
    rw [collapseSp] at hc2
    rcases mem_collapseSpAux false c hc2 with rfl | hc3
    · decide
    · exact (mem_crlfToLf c hc3).1
  · intro c hc
    have hc1 := mem_pyStrip c hc
    rw [collapseNl] at hc1
    have hc2 := mem_collapseNlAux 0 c hc1
    rw [collapseSp] at hc2
    exact collapseSpAux_no_tab false c hc2
  · rw [normalize_spaces, pyStrip]
    apply noSpPairAux_rdropWhile
    apply noSpPairAux_dropWhile _ false
    rw [collapseNl]
    apply noSpPairAux_collapseNl 0 false (by omega)
    rw [collapseSp]
    exact collapseSpAux_establish _ false
  · rw [normalize_spaces, pyStrip]
    apply noNl3Aux_rdropWhile
    apply noNl3Aux_dropWhile _ 0
    rw [collapseNl]
    have := collapseNlAux_establish (collapseSp (crlfToLf s)) 0
    simpa using this

/-- Two token lists with identical non-word structure: the same
other-characters in the same places, word runs (nonempty, word-only)
aligned one to one. -/
inductive WFR : List Tok → List Tok → Prop
  | nil : WFR [] []
  | other (c : Char) (rest rest' : List Tok) :
      isWordChar c = false → WFR rest rest' →
      WFR (.other c :: rest) (.other c :: rest')
  | wordNil (X Y : List Char) :
      X ≠ [] → Y ≠ [] → (∀ a ∈ X, isWordChar a = true) →
      (∀ a ∈ Y, isWordChar a = true) → WFR [.word X] [.word Y]
  | wordOther (X Y : List Char) (c : Char) (rest rest' : List Tok) :
      X ≠ [] → Y ≠ [] → (∀ a ∈ X, isWordChar a = true) →
      (∀ a ∈ Y, isWordChar a = true) → isWordChar c = false →
      WFR rest rest' → WFR (.word X :: .other c :: rest) (.word Y :: .other c :: rest')

theorem applyRulesWord_good {X : List Char} (hne : X ≠ [])
    (hall : ∀ a ∈ X, isWordChar a = true) :
    applyRulesWord X ≠ [] ∧ ∀ a ∈ applyRulesWord X, isWordChar a = true := by
  rw [applyRulesWord]
  have : ∀ (rs : List (List Char × List Char)) (Z : List Char),
      (∀ p ∈ rs, goodWord p.2) → Z ≠ [] → (∀ a ∈ Z, isWordChar a = true) →
      (rs.foldl wordApply Z ≠ [] ∧ ∀ a ∈ rs.foldl wordApply Z, isWordChar a = true) := by
    intro rs
    induction rs with
    | nil => intro Z _ hne hall; exact ⟨hne, hall⟩
    | cons p rest ih =>
      intro Z hgood hne hall
      rw [List.foldl_cons]
      rcases hw : wordApply Z p with _ | _
      · exfalso
        rw [wordApply] at hw
        by_cases h : lowWord Z = p.1
        · rw [if_pos h] at hw
          exact (hgood p (by simp)).1 hw
        · rw [if_neg h] at hw
          exact hne hw
      · rw [← hw]
        refine ih (wordApply Z p) (fun q hq => hgood q (by simp [hq])) ?_ ?_
        · rw [wordApply]
          by_cases h : lowWord Z = p.1
          · rw [if_pos h]
            exact (hgood p (by simp)).1
          · rw [if_neg h]
            exact hne
        · rw [wordApply]
          by_cases h : lowWord Z = p.1
          · rw [if_pos h]
            exact (hgood p (by simp)).2
          · rw [if_neg h]
            exact hall
  exact this rules X rules_good hne hall

theorem WFR_map_applyRules {ts : List Tok} (h : WFToks ts) :
    WFR ts (ts.map applyRulesTok) := by
  induction h with
  | nil => exact WFR.nil
  | other c rest hnw _ ih =>
    rw [List.map_cons, applyRulesTok_other]
    exact WFR.other c _ _ hnw ih
  | wordNil X hne hall =>
    rw [List.map_cons, applyRulesTok_word, List.map_nil]
    exact WFR.wordNil X _ hne (applyRulesWord_good hne hall).1 hall
      (applyRulesWord_good hne hall).2
  | wordOther X c rest hne hall hnw _ ih =>
    rw [List.map_cons, List.map_cons, applyRulesTok_word, applyRulesTok_other]
    exact WFR.wordOther X _ c _ _ hne (applyRulesWord_good hne hall).1 hall
      (applyRulesWord_good hne hall).2 hnw ih

theorem WFR_capToks {ts ts' : List Tok} (h : WFR ts ts') :
    WFR ts (capToks ts') := by
  cases h with
  | nil => exact WFR.nil
  | other c rest rest' hnw hr =>
    exact WFR.other c rest rest' hnw hr
  | wordNil X Y hxe hye hxa hya =>
    exact WFR.wordNil X _ hxe (capFirst_good Y hye hya).1 hxa
      (capFirst_good Y hye hya).2
  | wordOther X Y c rest rest' hxe hye hxa hya hnw hr =>
    exact WFR.wordOther X _ c rest rest' hxe (capFirst_good Y hye hya).1 hxa
      (capFirst_good Y hye hya).2 hnw hr

theorem T_mem {ts ts' : List Tok} (h : WFR ts ts') :
    ∀ c ∈ detok ts', isWordChar c = true ∨ c ∈ detok ts := by
  induction h with
  | nil => intro c hc; cases hc
  | other a rest rest' hnw _ ih =>
    intro c hc
    rw [detok] at hc
    rcases List.mem_cons.1 hc with rfl | hm
    · exact Or.inr (by rw [detok]; simp)
    · rcases ih c hm with hw | hmem
      · exact Or.inl hw
      · exact Or.inr (by rw [detok]; simp [hmem])
  | wordNil X Y _ _ _ hya =>
    intro c hc
    rw [detok] at hc
    rcases List.mem_append.1 hc with hm | hm
    · exact Or.inl (hya c hm)
    · cases hm
  | wordOther X Y a rest rest' _ _ _ hya hnw _ ih =>
    intro c hc
    rw [detok, detok] at hc
    rcases List.mem_append.1 hc with hm | hm
    · exact Or.inl (hya c hm)
    · rcases List.mem_cons.1 hm with rfl | hm2
      · exact Or.inr (by rw [detok, detok]; simp)
      · rcases ih c hm2 with hw | hmem
        · exact Or.inl hw
        · exact Or.inr (by rw [detok, detok]; simp [hmem])

theorem T_sp {ts ts' : List Tok} (h : WFR ts ts') :
    ∀ b, noSpPairAux b (detok ts) = true → noSpPairAux b (detok ts') = true := by
  induction h with
  | nil => intro b h2; exact h2
  | other a rest rest' hnw _ ih =>
    intro b h2
    rw [detok, noSpPairAux_cons] at h2 ⊢
    obtain ⟨hh, ht⟩ := band_elim h2
    rw [hh, Bool.true_and]
    exact ih _ ht
  | wordNil X Y _ hye _ hya =>
    intro b _
    rw [detok, detok, List.append_nil]
    exact noSpPairAux_word hya b
  | wordOther X Y a rest rest' hxe hye hxa hya hnw _ ih =>
    intro b h2
    rw [detok, detok, noSpPairAux_append, spState_word hxe hxa] at h2
    obtain ⟨_, ht⟩ := band_elim h2
    rw [noSpPairAux_cons] at ht
    obtain ⟨_, ht2⟩ := band_elim ht
    rw [detok, detok, noSpPairAux_append, spState_word hye hya,
      noSpPairAux_word hya, Bool.true_and, noSpPairAux_cons]
    simp only [Bool.false_and, Bool.not_false, Bool.true_and]
    exact ih _ ht2

theorem T_nl {ts ts' : List Tok} (h : WFR ts ts') :
    ∀ k, noNl3Aux k (detok ts) = true → noNl3Aux k (detok ts') = true := by
  induction h with
  | nil => intro k h2; exact h2
  | other a rest rest' hnw _ ih =>
    intro k h2
    rw [detok, noNl3Aux_cons] at h2 ⊢
    by_cases ha : a = '\n'
    · rw [if_pos ha] at h2 ⊢
      obtain ⟨hh, ht⟩ := band_elim h2
      rw [hh, Bool.true_and]
      exact ih _ ht
    · rw [if_neg ha] at h2 ⊢
      exact ih _ h2
  | wordNil X Y _ hye _ hya =>
    intro k _
    rw [detok, detok, List.append_nil]
    exact noNl3Aux_word hya k
  | wordOther X Y a rest rest' hxe hye hxa hya hnw _ ih =>
    intro k h2
    rw [detok, detok, noNl3Aux_append, nlState_word hxe hxa] at h2
    obtain ⟨_, ht⟩ := band_elim h2
    rw [detok, detok, noNl3Aux_append, nlState_word hye hya,
      noNl3Aux_word hya, Bool.true_and]
    rw [noNl3Aux_cons] at ht ⊢
    by_cases ha : a = '\n'
    · rw [if_pos ha] at ht ⊢
      obtain ⟨hh, ht2⟩ := band_elim ht
      rw [hh, Bool.true_and]
      exact ih _ ht2
    · rw [if_neg ha] at ht ⊢
      exact ih _ ht

theorem WFR_detok_nil {ts ts' : List Tok} (h : WFR ts ts') :
    (detok ts = [] ↔ detok ts' = []) := by
  cases h with
  | nil => exact Iff.rfl
  | other a rest rest' hnw hr =>
    rw [detok, detok]
    simp
  | wordNil X Y hxe hye _ _ =>
    simp only [detok, List.append_nil]
    constructor
    · intro he; exact absurd he hxe
    · intro he; exact absurd he hye
  | wordOther X Y a rest rest' hxe hye _ _ _ _ =>
    simp only [detok]
    constructor
    · intro he; exact absurd (List.append_eq_nil.1 he).1 hxe
    · intro he; exact absurd (List.append_eq_nil.1 he).1 hye

theorem getLast?_cons_ne {a : Char} {l : List Char} (h : l ≠ []) :
    (a :: l).getLast? = l.getLast? := by
  cases l with
  | nil => exact absurd rfl h
  | cons b bs => rw [List.getLast?_cons_cons]

theorem T_last {ts ts' : List Tok} (h : WFR ts ts') :
    (∀ c, (detok ts).getLast? = some c → isPyWs c = false) →
    (∀ c, (detok ts').getLast? = some c → isPyWs c = false) := by
  induction h with
  | nil => intro h2; exact h2
  | other a rest rest' hnw hr ih =>
    intro h2 c hc
    rw [detok] at hc
    by_cases he : detok rest' = []
    · rw [he] at hc
      rcases Option.some.inj hc with rfl
      have he2 : detok rest = [] := (WFR_detok_nil hr).2 he
      apply h2
      rw [detok, he2]
      rfl
    · rw [getLast?_cons_ne he] at hc
      refine ih ?_ c hc
      intro c' hc'
      apply h2
      rw [detok, getLast?_cons_ne (by
        intro hz
        rw [hz] at hc'
        cases hc')]
      exact hc'
  | wordNil X Y _ hye _ hya =>
    intro _ c hc
    rw [detok, detok, List.append_nil] at hc
    exact (wordChar_not_special (hya c (List.mem_of_mem_getLast? hc))).2.2.2.2
  | wordOther X Y a rest rest' hxe hye hxa hya hnw hr ih =>
    intro h2 c hc
    rw [detok, detok, List.getLast?_append_of_ne_nil _ (by simp)] at hc
    have h2' : ∀ c', (detok (Tok.other a :: rest)).getLast? = some c' →
        isPyWs c' = false := by
      intro c' hc'
      apply h2
      rw [detok, detok, List.getLast?_append_of_ne_nil _ (by simp)]
      rw [detok] at hc'
      exact hc'
    by_cases he : detok rest' = []
    · rw [he] at hc
      rcases Option.some.inj hc with rfl
      apply h2'
      rw [detok, (WFR_detok_nil hr).2 he]
      rfl
    · rw [getLast?_cons_ne he] at hc
      refine ih ?_ c hc
      intro c' hc'
      apply h2'
      rw [detok, getLast?_cons_ne (by
        intro hz
        rw [hz] at hc'
        cases hc')]
      exact hc'

theorem T_head {ts ts' : List Tok} (h : WFR ts ts') :
    (∀ c, (detok ts).head? = some c → isPyWs c = false) →
    (∀ c, (detok ts').head? = some c → isPyWs c = false) := by
  cases h with
  | nil => intro h2; exact h2
  | other a rest rest' hnw hr =>
    intro h2 c hc
    rw [detok] at hc
    rcases Option.some.inj hc with rfl
    apply h2
    rw [detok]
    rfl
  | wordNil X Y _ hye _ hya =>
    intro _ c hc
    rw [detok] at hc
    cases Y with
    | nil => exact absurd rfl hye
    | cons y ys =>
      rcases Option.some.inj hc with rfl
      exact (wordChar_not_special (hya y (by simp))).2.2.2.2
  | wordOther X Y a rest rest' hxe hye hxa hya hnw hr =>
    intro _ c hc
    rw [detok] at hc
    cases Y with
    | nil => exact absurd rfl hye
    | cons y ys =>
      rcases Option.some.inj hc with rfl
      exact (wordChar_not_special (hya y (by simp))).2.2.2.2


/-! ### C10: assembly -/

theorem applyRulesTok_eq_wordMap (tk : Tok) :
    applyRulesTok tk = (match tk with
      | .word X => Tok.word (applyRulesWord X) | .other c => .other c) := by
  cases tk with
  | word X => exact applyRulesTok_word X
  | other c => exact applyRulesTok_other c

theorem WFToks_map_applyRules {ts : List Tok} (h : WFToks ts) :
    WFToks (ts.map applyRulesTok) := by
  rw [List.map_congr_left (fun tk _ => applyRulesTok_eq_wordMap tk)]
  exact WFToks_map_word applyRulesWord
    (fun X hne hall => applyRulesWord_good hne hall) h

theorem textAfterRules_fixed {u : List Char} :
    ∀ rs : List (List Char × List Char),
      (∀ p ∈ rs, wordSub p.1 p.2 u = u) → textAfterRules rs u = u := by
  intro rs
  induction rs with
  | nil => intro _; rfl
  | cons p rest ih =>
    intro hfix
    rw [textAfterRules, List.foldl_cons, hfix p (by simp)]
    exact ih (fun q hq => hfix q (by simp [hq]))

/-- C10: the text component of `basic_spanish_fixes` is idempotent —
running the helper on its own output returns the same text. -/
theorem C10_fixes_idempotent (s : List Char) :
    (basic_spanish_fixes (basic_spanish_fixes s).1).1
      = (basic_spanish_fixes s).1 := by
  have hWF0 : WFToks (tokenize (normalize_spaces s)) :=
    WFToks_tokenize (normalize_spaces s)
  have hWFmap : WFToks ((tokenize (normalize_spaces s)).map applyRulesTok) :=
    WFToks_map_applyRules hWF0
  have hWF3 : WFToks (capToks ((tokenize (normalize_spaces s)).map applyRulesTok)) :=
    WFToks_capToks hWFmap
  have hchar : (basic_spanish_fixes s).1
      = detok (capToks ((tokenize (normalize_spaces s)).map applyRulesTok)) := by
    rw [bsf_text s, textAfterRules_tokens rules (normalize_spaces s) rules_good]
    rw [show ((tokenize (normalize_spaces s)).map
        (fun tk => rules.foldl (fun tk p => subTok p.1 p.2 tk) tk))
      = (tokenize (normalize_spaces s)).map applyRulesTok from rfl]
    exact capFirst_detok hWFmap
  set ts3 := capToks ((tokenize (normalize_spaces s)).map applyRulesTok) with hts3
  set u := detok ts3 with hudef
  have hRel : WFR (tokenize (normalize_spaces s)) ts3 :=
    WFR_capToks (WFR_map_applyRules hWF0)
  have hdet0 : detok (tokenize (normalize_spaces s)) = normalize_spaces s :=
    detok_tokenize (normalize_spaces s)
  obtain ⟨i1, i2, i3, i4, i5, i6⟩ := ns_invariants s
  have hns : normalize_spaces u = u := by
    refine ns_fix ?_ ?_ ?_ ?_ ?_ ?_
    · intro c hc
      rcases T_mem hRel c hc with hw | hm
      · exact (wordChar_not_special hw).1
      · rw [hdet0] at hm
        exact i1 c hm
    · intro c hc
      rcases T_mem hRel c hc with hw | hm
      · exact (wordChar_not_special hw).2.1
      · rw [hdet0] at hm
        exact i2 c hm
    · exact T_sp hRel false (by rw [hdet0]; exact i3)
    · exact T_nl hRel 0 (by rw [hdet0]; exact i4)
    · exact T_head hRel (by rw [hdet0]; exact i5)
    · exact T_last hRel (by rw [hdet0]; exact i6)
  have htoku : tokenize u = ts3 := by
    rw [hudef]
    exact tokenize_detok hWF3
  have hstable : ∀ tk ∈ ts3, StableTok tk :=
    stableTok_pass (tokenize (normalize_spaces s))
  have hsub : ∀ p ∈ rules, wordSub p.1 p.2 u = u := by
    intro p hp
    rw [wordSub, htoku]
    rw [show ts3.map (subTok p.1 p.2) = ts3.map id from
      List.map_congr_left (fun tk htk => hstable tk htk p hp)]
    rw [List.map_id]
  have hcapu : capFirst u = u := by
    rw [hudef, ← capFirst_detok hWFmap]
    exact capFirst_idem _
  rw [hchar]
  rw [bsf_text u, hns, textAfterRules_fixed rules hsub, hcapu]

end Inspector
